import Mathlib

/-!
Verification of the normalization and product-resolution engine of the
financial inquiry parser (`examples/financial_inquiry_parser/normalize.py`).

The Python module is shallowly embedded below:
* `datetime.date` values become the `PyDate` record; `date + timedelta(days=n)`
  becomes ordinal arithmetic through `daysFromCivil` / `civilFromDays`
  (the standard civil-calendar conversion, exact for all Gregorian dates);
* Python floats become rationals (`pyInt` models `int(x)` truncation,
  `pyRound` models the built-in banker's `round`);
* Python ints become `Int`; Python `//` and `%` always appear here with a
  positive divisor, where Lean's `Int` division/modulus agree with Python's;
* functions that may return `None` return `Option`.
-/

namespace FinNorm

/-- Python `int(x)` applied to a numeric value, modelled on rationals:
truncation toward zero. -/
def pyInt (q : ℚ) : ℤ := if 0 ≤ q then ⌊q⌋ else ⌈q⌉

/-- Python built-in `round(x)` (no digits argument): round half to even. -/
def pyRound (q : ℚ) : ℤ :=
  let f : ℤ := ⌊q⌋
  let r : ℚ := q - (f : ℚ)
  if r < 1/2 then f
  else if 1/2 < r then f + 1
  else if f % 2 = 0 then f else f + 1

/-- Python `round(x, 2)`: banker's rounding at two decimal places. -/
def round2 (q : ℚ) : ℚ := (pyRound (q * 100) : ℚ) / 100

/-- Model of `datetime.date`: a plain year/month/day record.  (Python
validates `1 <= year <= 9999`; validity is modelled separately by
`isValidDate` at the sites where the source constructs dates from
unchecked input.) -/
structure PyDate where
  year : ℤ
  month : ℤ
  day : ℤ
deriving DecidableEq, Repr

/-- Number of days from 1970-01-01 to the civil date `y-m-d` (Hinnant's
`days_from_civil`); models `datetime.date.toordinal` up to the constant
offset 719468. -/
def daysFromCivil (y m d : ℤ) : ℤ :=
  let y' := if m ≤ 2 then y - 1 else y
  let era := y' / 400
  let yoe := y' - era * 400
  let doy := (153 * (if 2 < m then m - 3 else m + 9) + 2) / 5 + d - 1
  let doe := yoe * 365 + yoe / 4 - yoe / 100 + doy
  era * 146097 + doe - 719468

/-- Inverse of `daysFromCivil` (Hinnant's `civil_from_days`). -/
def civilFromDays (z : ℤ) : PyDate :=
  let z' := z + 719468
  let era := z' / 146097
  let doe := z' - era * 146097
  let yoe := (doe - doe / 1460 + doe / 36524 - doe / 146096) / 365
  let y := yoe + era * 400
  let doy := doe - (365 * yoe + yoe / 4 - yoe / 100)
  let mp := (5 * doy + 2) / 153
  let d := doy - (153 * mp + 2) / 5 + 1
  let m := if mp < 10 then mp + 3 else mp - 9
  { year := if m ≤ 2 then y + 1 else y, month := m, day := d }

/-- Ordinal (days since 1970-01-01) of a `PyDate`. -/
def PyDate.ord (dt : PyDate) : ℤ := daysFromCivil dt.year dt.month dt.day

/-- Model of `date + timedelta(days=n)`. -/
def addDays (dt : PyDate) (n : ℤ) : PyDate := civilFromDays (dt.ord + n)

/-- Model of `date.weekday()`: Monday = 0 … Sunday = 6 (1970-01-01 was a
Thursday, weekday 3). -/
def PyDate.weekday (dt : PyDate) : ℤ := (dt.ord + 3) % 7

/-- Model of Python date validity as checked by the `datetime.date`
constructor (`ValueError` otherwise). -/
def isValidDate (y m d : ℤ) : Prop :=
  1 ≤ y ∧ y ≤ 9999 ∧ 1 ≤ m ∧ m ≤ 12 ∧ 1 ≤ d ∧
    d ≤ (civilFromDays (daysFromCivil y (m + 1) 1 - 1)).day ∨
  1 ≤ y ∧ y ≤ 9999 ∧ m = 12 ∧ 1 ≤ d ∧ d ≤ 31

/-- Left-pad a string with zeros to the given width. -/
def padZeros (s : String) (w : ℕ) : String :=
  if s.length < w then String.mk (List.replicate (w - s.length) '0') ++ s else s

/-- Python `f-string` fixed-width integer formatting (`0`-padded, width `w`),
as used by `isoformat` and the contract-code templates. -/
def intPad (n : ℤ) (w : ℕ) : String :=
  if n < 0 then "-" ++ padZeros (toString n.natAbs) (w - 1)
  else padZeros (toString n.natAbs) w

/-- Model of `date.isoformat()`. -/
def PyDate.isoformat (dt : PyDate) : String :=
  intPad dt.year 4 ++ "-" ++ intPad dt.month 2 ++ "-" ++ intPad dt.day 2

/-- Embedding of `_last_day_of_month` (normalize.py:106): computed, as in the
source, as the day field of `date(of the first of the next month) - 1 day`. -/
def _last_day_of_month (year month : ℤ) : ℤ :=
  let next_month := if month = 12 then daysFromCivil (year + 1) 1 1
                    else daysFromCivil year (month + 1) 1
  (civilFromDays (next_month - 1)).day

/-- Embedding of `add_months` (normalize.py:115): whole calendar months with
day-of-month clamping, plus `round(frac * 30)` days for the fractional part
(guarded by `abs(frac) > 1e-9`). -/
def add_months (start : PyDate) (months : ℚ) : PyDate :=
  let whole : ℤ := pyInt months
  let frac : ℚ := months - (whole : ℚ)
  let month0 := start.month + whole
  let year := start.year + (month0 - 1) / 12
  let month := (month0 - 1) % 12 + 1
  let day := min start.day (_last_day_of_month year month)
  let out : PyDate := { year := year, month := month, day := day }
  if 1/1000000000 < |frac| then addDays out (pyRound (frac * 30)) else out

/-- Embedding of `add_natural_days` (normalize.py:137). -/
def add_natural_days (start : PyDate) (days : ℤ) : PyDate := addDays start days

/-- One decrement step of the `add_trading_days_weekends_only` loop, on
ordinals: the next ordinal whose weekday is not Saturday/Sunday.  The Python
loop advances one calendar day per iteration and consumes one trading day
per non-weekend date reached; since weekdays cycle modulo 7, at most two
consecutive weekend days occur, so the next trading day is always one of the
next three calendar days. -/
def tradingStep (z : ℤ) : ℤ :=
  if 5 ≤ (z + 1 + 3) % 7 then
    if 5 ≤ (z + 2 + 3) % 7 then z + 3 else z + 2
  else z + 1

/-- Iterate `tradingStep`. -/
def tradingGo : ℕ → ℤ → ℤ
  | 0, z => z
  | n + 1, z => tradingGo n (tradingStep z)

/-- Embedding of `add_trading_days_weekends_only` (normalize.py:141). -/
def add_trading_days_weekends_only (start : PyDate) (days : ℤ) : PyDate :=
  if days ≤ 0 then start
  else civilFromDays (tradingGo days.toNat start.ord)

/-- Month index of a date counted from year 0: a convenient coordinate in
which correct calendar-month shifting is plain addition. -/
def monthsSinceZero (dt : PyDate) : ℤ := 12 * dt.year + (dt.month - 1)

/-- Model of the character class `\s` / `str.strip()` whitespace.  Python
recognizes all Unicode whitespace; the set below covers ASCII whitespace
plus the common Unicode spaces, which is the alphabet these functions are
exercised on. -/
def pyIsSpace (c : Char) : Bool :=
  c.toNat = 32 || c.toNat = 9 || c.toNat = 10 || c.toNat = 13 ||
  c.toNat = 11 || c.toNat = 12 || c.toNat = 160 || c.toNat = 0x3000

/-- Model of the regex class `[0-9]` (ASCII digits only, as in Python). -/
def isDigitCh (c : Char) : Bool := 48 ≤ c.toNat && c.toNat ≤ 57

/-- Model of the regex class `(?i)[a-z]`: ASCII letters.  (Python's
IGNORECASE can additionally match a handful of exotic case-folding
characters; those never form product codes and are out of the model.) -/
def isAsciiAlpha (c : Char) : Bool :=
  (65 ≤ c.toNat && c.toNat ≤ 90) || (97 ≤ c.toNat && c.toNat ≤ 122)

/-- Numeric value of a list of ASCII digits (model of `int(...)` on a
digit-only string). -/
def digitsVal (cs : List Char) : ℤ :=
  cs.foldl (fun acc c => 10 * acc + ((c.toNat : ℤ) - 48)) 0

/-- Model of `str.strip()`. -/
def pyStrip (s : String) : String :=
  String.mk (((s.toList.dropWhile pyIsSpace).reverse.dropWhile pyIsSpace).reverse)

/-- Matcher for the regex `^([0-9]{1,2})\s*月\s*([0-9]{1,2})\s*[日号]?$`
(normalize.py:263).  The quantifiers `[0-9]{1,2}` are greedy and the
following atom can never match a digit, so each digit group must be a
maximal digit run of length 1 or 2. -/
def matchMonthDay (cs : List Char) : Option (ℤ × ℤ) :=
  let d1 := cs.takeWhile isDigitCh
  let r1 := cs.dropWhile isDigitCh
  if d1.length = 0 || 2 < d1.length then none
  else
    match r1.dropWhile pyIsSpace with
    | [] => none
    | c :: r3 =>
      if c = '月' then
        let r4 := r3.dropWhile pyIsSpace
        let d2 := r4.takeWhile isDigitCh
        let r5 := r4.dropWhile isDigitCh
        if d2.length = 0 || 2 < d2.length then none
        else
          match r5.dropWhile pyIsSpace with
          | [] => some (digitsVal d1, digitsVal d2)
          | [c2] => if c2 = '日' || c2 = '号' then some (digitsVal d1, digitsVal d2) else none
          | _ => none
      else none

/-- Scanner for the regex `[0-9]{4}` under `re.search` (is there a run of
four consecutive digits?): `k` counts the digits matched so far. -/
def run4 : List Char → ℕ → Bool
  | [], _ => false
  | c :: cs, k =>
    if isDigitCh c then (if k + 1 = 4 then true else run4 cs (k + 1))
    else run4 cs 0

/-- Model of `re.search(r"[0-9]{4}", s)` being a match. -/
def hasFourDigitRun (cs : List Char) : Bool := run4 cs 0

/-- Python date-constructor validity (the `datetime.date` range checks that
raise `ValueError` when violated). -/
def validDate (y m d : ℤ) : Prop :=
  1 ≤ y ∧ y ≤ 9999 ∧ 1 ≤ m ∧ m ≤ 12 ∧ 1 ≤ d ∧ d ≤ _last_day_of_month y m

instance (y m d : ℤ) : Decidable (validDate y m d) := by
  unfold validDate
  infer_instance

/-- Modelled from the spec: `dateutil.parser.parse(s, yearfirst=True,
dayfirst=False, fuzzy=False)` is an external library call; the spec
describes the branch as a strict year-first absolute pattern,
"`YYYY-?MM-?DD` (any single non-digit separator)".  The model accepts a
4-digit year, then either the compact 8-digit form or two 1-2 digit
fields each preceded by a single non-digit separator, validates the
calendar date, and fails (as the caught `ValueError`/`OverflowError`
does) otherwise. -/
def dateutilParse (cs : List Char) : Option PyDate :=
  let d1 := cs.takeWhile isDigitCh
  let r1 := cs.dropWhile isDigitCh
  if d1.length = 8 && r1.isEmpty then
    let y := digitsVal (d1.take 4)
    let m := digitsVal ((d1.drop 4).take 2)
    let d := digitsVal (d1.drop 6)
    if validDate y m d then some { year := y, month := m, day := d } else none
  else if d1.length = 4 then
    match r1 with
    | [] => none
    | _ :: r2 =>
      let d2 := r2.takeWhile isDigitCh
      let r3 := r2.dropWhile isDigitCh
      if d2.length = 0 || 2 < d2.length then none
      else
        match r3 with
        | [] => none
        | _ :: r4 =>
          let d3 := r4.takeWhile isDigitCh
          let r5 := r4.dropWhile isDigitCh
          if d3.length = 0 || 2 < d3.length || !r5.isEmpty then none
          else
            let y := digitsVal d1
            let m := digitsVal d2
            let d := digitsVal d3
            if validDate y m d then some { year := y, month := m, day := d } else none
  else none

/-- Embedding of `_infer_year_for_month_day` (normalize.py:252): Python's
tuple comparison `(month, day) < (current.month, current.day)` spelled
out. -/
def _infer_year_for_month_day (current : PyDate) (month day : ℤ) : ℤ :=
  if month < current.month ∨ (month = current.month ∧ day < current.day)
  then current.year + 1 else current.year

/-- Embedding of `_parse_expire_date_str` (normalize.py:259): the localized
month-day pattern, then (guarded by the presence of a 4-digit run) the
absolute-date parse; date-constructor failures are caught and mapped to
`None`. -/
def _parse_expire_date_str (s : String) (current_date : PyDate) : Option PyDate :=
  let cs := (pyStrip s).toList
  match matchMonthDay cs with
  | some (m, d) =>
    let y := _infer_year_for_month_day current_date m d
    if validDate y m d then some { year := y, month := m, day := d } else none
  | none => if hasFourDigitRun cs then dateutilParse cs else none

/-- The branch order stated by the specification for the absolute-date
string: the strict year-first absolute pattern is tried first, and only
then the localized month-day pattern. -/
def parseExpireDateSpecOrder (s : String) (current_date : PyDate) : Option PyDate :=
  let cs := (pyStrip s).toList
  match (if hasFourDigitRun cs then dateutilParse cs else none) with
  | some d => some d
  | none =>
    match matchMonthDay cs with
    | some (m, d) =>
      let y := _infer_year_for_month_day current_date m d
      if validDate y m d then some { year := y, month := m, day := d } else none
    | none => none

/-- Embedding of `infer_expire_date` (normalize.py:286).  Python's
`if explicit_expire_date:` is a truthiness test, false for both `None`
and the empty string. -/
def infer_expire_date (current_date : PyDate)
    (explicit_expire_date : Option String)
    (expire_in_months : Option ℚ)
    (expire_in_natural_days : Option ℤ)
    (expire_in_trading_days : Option ℤ) : Option String :=
  let fromExplicit : Option PyDate :=
    match explicit_expire_date with
    | some s => if s.isEmpty then none else _parse_expire_date_str s current_date
    | none => none
  match fromExplicit with
  | some d => some d.isoformat
  | none =>
    match expire_in_months with
    | some m => some (add_months current_date m).isoformat
    | none =>
      match expire_in_trading_days with
      | some td => some (add_trading_days_weekends_only current_date td).isoformat
      | none =>
        match expire_in_natural_days with
        | some nd => some (add_natural_days current_date nd).isoformat
        | none => none

/-- ASCII uppercase letter test (the regex class `[A-Z]`). -/
def isUpperAlpha (c : Char) : Bool := 65 ≤ c.toNat && c.toNat ≤ 90

/-- Model of `str.upper()` on the characters that reach it here (ASCII
case-mapping; other characters unchanged). -/
def pyUpperChar (c : Char) : Char :=
  if 97 ≤ c.toNat && c.toNat ≤ 122 then Char.ofNat (c.toNat - 32) else c

/-- Uppercase a character list into a string. -/
def upperStr (cs : List Char) : String := String.mk (cs.map pyUpperChar)

/-- Scanner implementing `re.search` for the two contract-code patterns
`(?i)(?<![a-z])([a-z]\x7b1,6\x7d)\s*([0-9]\x7bn\x7d)(?![0-9])`
(normalize.py:162 with n = exactly 4, normalize.py:172 with n in 1..2,
abstracted by `lenOK` on the length of the maximal digit run).  `prev`
records whether the previous character was a letter (the negative
lookbehind).  Since the letter quantifier is greedy and backtracking it to
fewer letters always leaves a letter where a digit is required, a match at
a position is possible exactly for the maximal letter run there, of length
at most 6, followed (after optional whitespace) by a maximal digit run
whose length satisfies the quantifier; failing positions advance one
character, as `re.search` does. -/
def scanPat (lenOK : ℕ → Bool) : Bool → List Char → Option (List Char × List Char)
  | _, [] => none
  | prev, c :: cs =>
    if isAsciiAlpha c then
      if prev then scanPat lenOK true cs
      else
        let run := List.takeWhile isAsciiAlpha (c :: cs)
        let rest1 := List.dropWhile isAsciiAlpha (c :: cs)
        if run.length ≤ 6 then
          let rest2 := rest1.dropWhile pyIsSpace
          let digits := rest2.takeWhile isDigitCh
          if lenOK digits.length then some (run, digits)
          else scanPat lenOK true cs
        else scanPat lenOK true cs
    else scanPat lenOK false cs

/-- The digit-count test of the explicit YYMM pattern (`[0-9]{4}` with a
negative digit lookahead): the maximal digit run has length exactly 4. -/
def lenEq4 (l : ℕ) : Bool := l == 4

/-- The digit-count test of the month-only pattern (`[0-9]{1,2}` with a
negative digit lookahead). -/
def lenLe2 (l : ℕ) : Bool := decide (1 ≤ l) && decide (l ≤ 2)

/-- Embedding of `infer_contract_code` (normalize.py:157). -/
def infer_contract_code (text : String) (current_date : PyDate) : Option String :=
  let t := (pyStrip text).toList
  match scanPat lenEq4 false t with
  | some (run, digits) =>
    let mm := digitsVal (digits.drop 2)
    if 1 ≤ mm ∧ mm ≤ 12 then some (upperStr run ++ String.mk digits) else none
  | none =>
    match scanPat lenLe2 false t with
    | none => none
    | some (run, digits) =>
      let month := digitsVal digits
      if 1 ≤ month ∧ month ≤ 12 then
        let year0 := current_date.year % 100
        let year := if month < current_date.month then (year0 + 1) % 100 else year0
        some (upperStr run ++ intPad year 2 ++ intPad month 2)
      else none

/-- The contract-code text inference exactly as the claim words it: the
product token must be *directly* followed by the digits, with no
whitespace in between (the `\s*` of the source's regexes removed).  Used
to compare the claim against the embedded `infer_contract_code`. -/
def scanPatAdjacent (lenOK : ℕ → Bool) : Bool → List Char → Option (List Char × List Char)
  | _, [] => none
  | prev, c :: cs =>
    if isAsciiAlpha c then
      if prev then scanPatAdjacent lenOK true cs
      else
        let run := List.takeWhile isAsciiAlpha (c :: cs)
        let rest1 := List.dropWhile isAsciiAlpha (c :: cs)
        if run.length ≤ 6 then
          let digits := rest1.takeWhile isDigitCh
          if lenOK digits.length then some (run, digits)
          else scanPatAdjacent lenOK true cs
        else scanPatAdjacent lenOK true cs
    else scanPatAdjacent lenOK false cs

/-- The claim's reading of `infer_contract_code` ("directly followed by
4 digits" / month digits), kept otherwise identical. -/
def inferContractCodeClaimed (text : String) (current_date : PyDate) : Option String :=
  let t := (pyStrip text).toList
  match scanPatAdjacent lenEq4 false t with
  | some (run, digits) =>
    let mm := digitsVal (digits.drop 2)
    if 1 ≤ mm ∧ mm ≤ 12 then some (upperStr run ++ String.mk digits) else none
  | none =>
    match scanPatAdjacent lenLe2 false t with
    | none => none
    | some (run, digits) =>
      let month := digitsVal digits
      if 1 ≤ month ∧ month ≤ 12 then
        let year0 := current_date.year % 100
        let year := if month < current_date.month then (year0 + 1) % 100 else year0
        some (upperStr run ++ intPad year 2 ++ intPad month 2)
      else none

/-- Embedding of `_uses_ymm_contract_suffix` (normalize.py:188), with the
product→suffix-format table passed explicitly (the generated table is
static data; theorems quantify over it). -/
def _uses_ymm_contract_suffix (sfmt : List (String × String)) (product : String) : Bool :=
  sfmt.lookup product == some "YMM"

/-- Modelled from the spec: the generated table
`generated_contract_suffix_rules.PRODUCT_SUFFIX_FORMAT` is not among the
provided sources; per the spec (testable property §8) product OI carries
suffix-format YMM.  Used only to instantiate concrete examples. -/
def OISuffixTable : List (String × String) := [("OI", "YMM")]

/-- Embedding of `_resolve_contract_year` (normalize.py:192). -/
def _resolve_contract_year (month : ℤ) (current_date : PyDate)
    (contract_year : Option ℤ) : Option ℤ :=
  match contract_year with
  | some cy =>
    if cy < 0 then none
    else if 100 ≤ cy then some (cy % 100)
    else if cy < 10 then
      let current_yy := current_date.year % 100
      let candidate := current_yy / 10 * 10 + cy
      if candidate < current_yy ∨ (candidate = current_yy ∧ month < current_date.month)
      then some (candidate + 10) else some candidate
    else some cy
  | none =>
    let year0 := current_date.year % 100
    some (if month < current_date.month then (year0 + 1) % 100 else year0)

/-- Letter-only product-code shape: the regex `fullmatch(r"[A-Z]{1,6}")`
applied after strip/upper. -/
def fullmatchUpper16 (cs : List Char) : Bool :=
  decide (1 ≤ cs.length) && decide (cs.length ≤ 6) && cs.all isUpperAlpha

/-- Embedding of `build_contract_code_from_parts` (normalize.py:216).
Python's `if not product_code or contract_month is None` is a truthiness
test, so a `None` or empty product code and a `None` month short-circuit
to `None`. -/
def build_contract_code_from_parts (sfmt : List (String × String))
    (current_date : PyDate) (product_code : Option String)
    (contract_month contract_year : Option ℤ) : Option String :=
  match product_code, contract_month with
  | some pc, some cm =>
    if pc.isEmpty then none
    else
      let product := upperStr (pyStrip pc).toList
      if fullmatchUpper16 product.toList then
        if 1 ≤ cm ∧ cm ≤ 12 then
          match _resolve_contract_year cm current_date contract_year with
          | none => none
          | some year =>
            if _uses_ymm_contract_suffix sfmt product then
              some (product ++ toString (year % 10) ++ intPad cm 2)
            else
              some (product ++ intPad year 2 ++ intPad cm 2)
        else none
      else none
  | _, _ => none

/-- The two contract-code suffix formats of
`build_contract_code_from_parts`: YMM products emit a single year digit
(`year % 10`) plus the 2-digit month, all other products the full 2-digit
year plus the 2-digit month. -/
def contractFormat (sfmt : List (String × String)) (P : String) (year cm : ℤ) : String :=
  if _uses_ymm_contract_suffix sfmt P then P ++ toString (year % 10) ++ intPad cm 2
  else P ++ intPad year 2 ++ intPad cm 2

/-- Embedding of `InquiryQuote` (schema.py).  The provided `schema.py`
variant of the record has no `quantity` field while `normalize_quote`
passes one; per the spec's data model (§3) the field exists and is
"variant-dependent", so the record is embedded with it. -/
structure InquiryQuote where
  contract_code : Option String
  call_put : Option ℤ
  buy_sell : Option ℤ
  strike : Option ℚ
  strike_offset : Option ℚ
  underlying_price : Option ℚ
  expire_date : Option String
  quantity : Option ℚ
deriving DecidableEq, Repr

/-- Embedding of `normalize_quote` (normalize.py:311). -/
def normalize_quote (sfmt : List (String × String)) (current_date : PyDate)
    (call_put buy_sell : Option ℤ)
    (strike strike_offset underlying_price : Option ℚ)
    (expire_date : Option String) (expire_in_months : Option ℚ)
    (expire_in_natural_days expire_in_trading_days : Option ℤ)
    (product_code : Option String) (contract_month contract_year : Option ℤ)
    (quantity : Option ℚ) : InquiryQuote :=
  let contract := build_contract_code_from_parts sfmt current_date product_code
    contract_month contract_year
  let cp := call_put
  let bs := buy_sell
  let s := strike
  let so := match strike with
    | some _ => none
    | none => strike_offset
  let exp := infer_expire_date current_date expire_date expire_in_months
    expire_in_natural_days expire_in_trading_days
  { contract_code := contract, call_put := cp, buy_sell := bs, strike := s,
    strike_offset := so, underlying_price := underlying_price,
    expire_date := exp, quantity := quantity }

/-- Is `pat` a prefix of the second list? -/
def isPrefixList : List Char → List Char → Bool
  | [], _ => true
  | _ :: _, [] => false
  | p :: ps, c :: cs => p == c && isPrefixList ps cs

/-- Is `pat` a contiguous sublist of the second list (Python's `in` on
strings)? -/
def isSubList : List Char → List Char → Bool
  | pat, [] => pat.isEmpty
  | pat, c :: cs => isPrefixList pat (c :: cs) || isSubList pat cs

/-- Python `needle in haystack` on strings. -/
def strContains (hay needle : String) : Bool := isSubList needle.toList hay.toList

/-- Modelled from the spec: `infer_buy_sell` belongs to the text-inference
variant of the normalization module, which is not among the provided
sources.  Per the spec (§4.4, §6) and the agent instructions in
`run_structured_output.py`, phrases implying that the customer buys
(explicit customer direction, our-side-sells perspective flips, "offer")
and phrases implying that the customer sells ("客户卖", our-side-buys
flips, "bid") are collected, and a direction is returned only when
exactly one side is signaled. -/
def buyKeywords : List String := ["客户买", "我方卖", "我们卖", "卖给你", "offer"]

/-- Modelled from the spec: phrases implying the customer sells; see
`buyKeywords`. -/
def sellKeywords : List String := ["客户卖", "我方买", "我们买", "从你买", "bid"]

/-- Does the text signal that the customer buys? -/
def buySignal (text : String) : Bool := buyKeywords.any (fun k => strContains text k)

/-- Does the text signal that the customer sells? -/
def sellSignal (text : String) : Bool := sellKeywords.any (fun k => strContains text k)

/-- Modelled from the spec: customer direction inference; 1 = customer
buys, -1 = customer sells, null on no signal or on conflicting signals. -/
def infer_buy_sell (text : String) : Option ℤ :=
  if buySignal text && !sellSignal text then some 1
  else if sellSignal text && !buySignal text then some (-1)
  else none

/-- Embedding of `ProductCandidate` (schema.py). -/
structure ProductCandidate where
  product_code : String
  matched_alias : String
  score : ℚ
deriving DecidableEq, Repr

/-- One row of `_PRODUCT_ALIAS_ENTRIES` (normalize.py:42): the alias, its
normalized form, and the canonical product code.  The generated alias
table is static data; the theorems quantify over it.  Aliases are unique
in the generated table (they are the keys of a dict). -/
structure AliasEntry where
  aliasStr : String
  norm : String
  code : String
deriving DecidableEq, Repr

/-- One call to `_upsert_candidate`: the canonical code, the matched alias
and the raw (unclamped) score. -/
structure UpsertReq where
  code : String
  aliasStr : String
  score : ℚ
deriving DecidableEq, Repr

/-- The clamp `max(0.0, min(100.0, float(score)))` of `_upsert_candidate`. -/
def bounded_score (q : ℚ) : ℚ := max 0 (min 100 q)

/-- Embedding of `_upsert_candidate` (normalize.py:47).  The Python dict is
modelled as an insertion-ordered association list keyed by
`product_code`; replacing a value keeps its position, as dict update
does, and a new key is appended, as dict insertion does. -/
def _upsert_candidate (candidates : List ProductCandidate)
    (product_code matched_alias : String) (score : ℚ) : List ProductCandidate :=
  let bounded := bounded_score score
  match candidates with
  | [] => [{ product_code := product_code, matched_alias := matched_alias,
             score := round2 bounded }]
  | c :: rest =>
    if c.product_code = product_code then
      if c.score < bounded then
        { product_code := product_code, matched_alias := matched_alias,
          score := round2 bounded } :: rest
      else c :: rest
    else c :: _upsert_candidate rest product_code matched_alias score

/-- Run a sequence of `_upsert_candidate` calls. -/
def upsertAll (st : List ProductCandidate) (reqs : List UpsertReq) :
    List ProductCandidate :=
  reqs.foldl (fun acc r => _upsert_candidate acc r.code r.aliasStr r.score) st

/-- The character class kept by `_normalize_product_text`:
uppercase letters, digits, CJK ideographs. -/
def keepProductCh (c : Char) : Bool :=
  isUpperAlpha c || isDigitCh c || (0x4e00 ≤ c.toNat && c.toNat ≤ 0x9fff)

/-- Embedding of `_normalize_product_text` (normalize.py:27), parameterized
by a model `nfkc` of `unicodedata.normalize("NFKC", ·)` (an external
library function): NFKC-fold, uppercase, keep only letters/digits/CJK. -/
def _normalize_product_text (nfkc : String → String) (value : String) : String :=
  String.mk (((nfkc value).toList.map pyUpperChar).filter keepProductCh)

/-- Maximal uppercase-letter runs of a character list, in order. -/
def upperRuns (l : List Char) : List (List Char) :=
  match l with
  | [] => []
  | c :: cs =>
    if isUpperAlpha c then
      (c :: cs.takeWhile isUpperAlpha) :: upperRuns (cs.dropWhile isUpperAlpha)
    else upperRuns cs
termination_by l.length
decreasing_by
  all_goals simp only [List.length_cons]
  · exact Nat.lt_succ_of_le (List.dropWhile_sublist isUpperAlpha).length_le
  · exact Nat.lt_succ_self _

/-- Greedy 6-chunks of a run (`re.findall(r"[A-Z]{1,6}", ...)` splits a
longer run into pieces of six). -/
def chunk6 (l : List Char) : List (List Char) :=
  match l with
  | [] => []
  | c :: cs => (c :: cs.take 5) :: chunk6 (cs.drop 5)
termination_by l.length
decreasing_by
  simp only [List.length_cons, List.length_drop]
  omega

/-- Model of `re.findall(r"[A-Z]{1,6}", s)`: every maximal uppercase run,
greedily chunked into pieces of at most six characters. -/
def findallUpper16 (l : List Char) : List (List Char) :=
  (upperRuns l).flatMap chunk6

/-- Model of `re.sub(r"[0-9]+", " ", s)`: every maximal digit run becomes
one space. -/
def replaceDigitRuns (l : List Char) : List Char :=
  match l with
  | [] => []
  | c :: cs =>
    if isDigitCh c then ' ' :: replaceDigitRuns (cs.dropWhile isDigitCh)
    else c :: replaceDigitRuns cs
termination_by l.length
decreasing_by
  all_goals simp only [List.length_cons]
  · exact Nat.lt_succ_of_le (List.dropWhile_sublist isDigitCh).length_le
  · exact Nat.lt_succ_self _

/-- The fuzzy-pass query of `find_product_candidates` (normalize.py:83):
digits replaced by spaces in the NFKC-folded raw query, stripped,
uppercased. -/
def fuzzyQueryOf (nfkc : String → String) (query : String) : String :=
  String.mk ((pyStrip (String.mk (replaceDigitRuns (nfkc query).toList))).toList.map
    pyUpperChar)

/-- The comparison used to model Python's
`sorted(..., key=lambda item: (-item.score, item.product_code))`:
`a` sorts no later than `b` when its score is higher, or equal with a
code no larger. -/
def candLE (a b : ProductCandidate) : Bool :=
  decide (b.score < a.score ∨ (a.score = b.score ∧ a.product_code ≤ b.product_code))

/-- The full sequence of `_upsert_candidate` calls performed by
`find_product_candidates` (normalize.py:72-100): the deterministic
substring pass over the alias table, the known-code token pass, then the
fuzzy pass (scores below 60 dropped; `fuzzy` models the
`rapidfuzz_process.extract` call on the digit-stripped query with the
window size `min(len(table), max(top_k*5, 10))`; rapidfuzz only returns
aliases drawn from the table it is given, so an alias missing from the
table — the impossible `KeyError` — is skipped). -/
def findRequests (nfkc : String → String) (entries : List AliasEntry)
    (fuzzy : String → ℤ → List (String × ℚ)) (query : String) (top_k : ℤ) :
    List UpsertReq :=
  let normalized_query := _normalize_product_text nfkc query
  let knownCodes := entries.map (fun e => e.code)
  let pass1 : List UpsertReq :=
    (entries.filter (fun e =>
        !e.norm.isEmpty && isSubList e.norm.toList normalized_query.toList)).map
      (fun e => { code := e.code, aliasStr := e.aliasStr, score := 100 })
  let pass2 : List UpsertReq :=
    ((findallUpper16 normalized_query.toList).filter
        (fun tok => knownCodes.contains (String.mk tok))).map
      (fun tok => { code := String.mk tok, aliasStr := String.mk tok, score := 100 })
  let fq := fuzzyQueryOf nfkc query
  let limit : ℤ := min (entries.length : ℤ) (max (top_k * 5) 10)
  let pass3 : List UpsertReq :=
    if fq.isEmpty then []
    else
      ((fuzzy fq limit).filter (fun p => !decide (p.2 < 60))).filterMap
        (fun p => match entries.find? (fun e => e.aliasStr == p.1) with
          | some e => some { code := e.code, aliasStr := p.1, score := p.2 }
          | none => none)
  pass1 ++ pass2 ++ pass3

/-- Embedding of `find_product_candidates` (normalize.py:60), parameterized
by the external pieces (`nfkc` for `unicodedata.normalize("NFKC", ·)`,
the generated alias table, and `fuzzy` for `rapidfuzz_process.extract`).
The three source loops build the candidate dict through
`_upsert_candidate`; the dict values are then ranked by
(score descending, product code ascending) and truncated to `top_k`. -/
def find_product_candidates (nfkc : String → String) (entries : List AliasEntry)
    (fuzzy : String → ℤ → List (String × ℚ)) (query : String) (top_k : ℤ) :
    List ProductCandidate :=
  if top_k ≤ 0 then []
  else if (_normalize_product_text nfkc query).isEmpty then []
  else
    let candidates := upsertAll [] (findRequests nfkc entries fuzzy query top_k)
    let ranked := candidates.mergeSort candLE
    ranked.take top_k.toNat

/-- Sequential per-key view of the candidate dict: what the entry at one
fixed code becomes after one upsert request for that code. -/
def upsertOpt (o : Option ProductCandidate) (r : UpsertReq) : Option ProductCandidate :=
  match o with
  | none => some { product_code := r.code, matched_alias := r.aliasStr,
                   score := round2 (bounded_score r.score) }
  | some c =>
    if c.score < bounded_score r.score then
      some { product_code := r.code, matched_alias := r.aliasStr,
             score := round2 (bounded_score r.score) }
    else some c

/-- The requests concerning one product code. -/
def codeReqs (reqs : List UpsertReq) (code : String) : List UpsertReq :=
  reqs.filter (fun r => r.code == code)

/-- What the merge step guarantees for one retained candidate, relative to
the sequence of upsert requests that mention its product code: the
candidate records one of the requested aliases, its stored score is that
request's clamped-and-rounded score, and no request for the same code has
a larger clamped-and-rounded score. -/
def GoodCand (processed : List UpsertReq) (c : ProductCandidate) : Prop :=
  (∃ r ∈ processed, r.code = c.product_code ∧ r.aliasStr = c.matched_alias
      ∧ c.score = round2 (bounded_score r.score))
  ∧ (∀ r ∈ processed, r.code = c.product_code →
      round2 (bounded_score r.score) ≤ c.score)

theorem pyInt_intCast (m : ℤ) : pyInt (m : ℚ) = m := by
  unfold pyInt
  split <;> simp

/-- On an integer month count `add_months` is the pure whole-month shift:
the fractional branch is not taken. -/
theorem add_months_intCast (start : PyDate) (m : ℤ) :
    add_months start (m : ℚ) =
      { year := start.year + (start.month + m - 1) / 12,
        month := (start.month + m - 1) % 12 + 1,
        day := min start.day
          (_last_day_of_month (start.year + (start.month + m - 1) / 12)
            ((start.month + m - 1) % 12 + 1)) } := by
  unfold add_months
  rw [pyInt_intCast]
  simp

/-- C9: `add_months(start, months)` splits `months` into an integer whole
part and a fractional remainder; it shifts `start` by the whole calendar
months with the day-of-month clamped to the last valid day of the resulting
month (so `add_months(2026-01-31, 1) = 2026-02-28`), then adds
`round(frac * 30)` calendar days for the fractional remainder; negative
month counts are handled symmetrically, the month-index modular arithmetic
being exact for negative whole-month shifts
(`monthsSinceZero` advances by exactly `m` for every integer `m`). -/
theorem add_months_correct (start : PyDate) (q : ℚ) (m : ℤ) :
    monthsSinceZero (add_months start (m : ℚ)) = monthsSinceZero start + m
    ∧ (add_months start (m : ℚ)).day
        = min start.day
            (_last_day_of_month (add_months start (m : ℚ)).year
              (add_months start (m : ℚ)).month)
    ∧ add_months start q
        = (if 1/1000000000 < |q - (pyInt q : ℚ)|
           then add_natural_days (add_months start ((pyInt q : ℤ) : ℚ))
                  (pyRound ((q - (pyInt q : ℚ)) * 30))
           else add_months start ((pyInt q : ℤ) : ℚ))
    ∧ add_months (PyDate.mk 2026 1 31) 1 = PyDate.mk 2026 2 28 := by
  refine ⟨?_, ?_, ?_, ?_⟩
  · rw [add_months_intCast]
    dsimp only [monthsSinceZero]
    have h := Int.ediv_add_emod (start.month + m - 1) 12
    omega
  · rw [add_months_intCast]
  · rw [add_months_intCast]
    unfold add_months add_natural_days
    rfl
  · rw [show (1 : ℚ) = ((1 : ℤ) : ℚ) by norm_num, add_months_intCast]
    decide

theorem space_not_digit (c : Char) (h : pyIsSpace c = true) : isDigitCh c = false := by
  unfold pyIsSpace at h
  unfold isDigitCh
  simp only [Bool.or_eq_true, decide_eq_true_eq] at h
  simp only [Bool.and_eq_false_iff, decide_eq_false_iff_not]
  omega

theorem run4_digits (xs ys : List Char) (k : ℕ)
    (hd : ∀ c ∈ xs, isDigitCh c = true) (hk : k + xs.length ≤ 3) :
    run4 (xs ++ ys) k = run4 ys (k + xs.length) := by
  induction xs generalizing k with
  | nil => simp
  | cons c cs ih =>
    have hc := hd c (by simp)
    simp only [List.cons_append, run4, hc, if_true, List.append_eq]
    have hlen : k + 1 ≠ 4 := by
      simp only [List.length_cons] at hk
      omega
    rw [if_neg hlen,
      ih (k + 1) (fun x hx => hd x (List.mem_cons_of_mem _ hx))
        (by simp only [List.length_cons] at hk; omega)]
    congr 1
    simp only [List.length_cons]
    omega

theorem run4_all_nondigit (xs : List Char)
    (hd : ∀ c ∈ xs, isDigitCh c = false) : ∀ k, run4 xs k = false := by
  induction xs with
  | nil => intro k; rfl
  | cons c cs ih =>
    intro k
    have hc := hd c (by simp)
    simp only [run4, hc, Bool.false_eq_true, if_false]
    exact ih (fun x hx => hd x (by simp [hx])) 0

theorem run4_nondigit_front (xs ys : List Char)
    (hd : ∀ c ∈ xs, isDigitCh c = false) (hne : xs ≠ []) (k : ℕ) :
    run4 (xs ++ ys) k = run4 ys 0 := by
  induction xs generalizing k with
  | nil => exact absurd rfl hne
  | cons c cs ih =>
    have hc := hd c (by simp)
    simp only [List.cons_append, run4, hc, Bool.false_eq_true, if_false]
    cases cs with
    | nil => simp
    | cons c2 cs2 => exact ih (fun x hx => hd x (by simp [hx])) (by simp) 0

theorem run4_nondigit_front0 (xs ys : List Char)
    (hd : ∀ c ∈ xs, isDigitCh c = false) :
    run4 (xs ++ ys) 0 = run4 ys 0 := by
  cases xs with
  | nil => rfl
  | cons c cs => exact run4_nondigit_front (c :: cs) ys hd (by simp) 0

/-- The localized month-day pattern and the 4-digit-run guard of the
absolute-date branch are mutually exclusive: a matching month-day string
contains only digit runs of length at most two, separated by non-digits. -/
theorem matchMonthDay_no_four_run (cs : List Char) (x : ℤ × ℤ)
    (h : matchMonthDay cs = some x) : hasFourDigitRun cs = false := by
  simp only [matchMonthDay] at h
  have hsplit1 : cs.takeWhile isDigitCh ++ cs.dropWhile isDigitCh = cs :=
    List.takeWhile_append_dropWhile ..
  split at h
  · exact absurd h (by simp)
  case isFalse hlen1 =>
  split at h
  · exact absurd h (by simp)
  case h_2 c r3 hdw1 =>
  split at h
  case isFalse => exact absurd h (by simp)
  case isTrue hc =>
  split at h
  case isTrue => exact absurd h (by simp)
  case isFalse hlen2 =>
  -- names for the pieces of the decomposition
  set d1 := cs.takeWhile isDigitCh with hd1
  set r1 := cs.dropWhile isDigitCh with hr1
  set w1 := r1.takeWhile pyIsSpace with hw1
  set r4 := r3.dropWhile pyIsSpace with hr4
  set w2 := r3.takeWhile pyIsSpace with hw2
  set d2 := r4.takeWhile isDigitCh with hd2v
  set r5 := r4.dropWhile isDigitCh with hr5
  set w3 := r5.takeWhile pyIsSpace with hw3
  have hsplit2 : w1 ++ (c :: r3) = r1 := by rw [hw1, ← hdw1]; exact List.takeWhile_append_dropWhile ..
  have hsplit3 : w2 ++ r4 = r3 := List.takeWhile_append_dropWhile ..
  have hsplit4 : d2 ++ r5 = r4 := List.takeWhile_append_dropWhile ..
  have hall_d1 : ∀ a ∈ d1, isDigitCh a = true := fun a ha => List.mem_takeWhile_imp ha
  have hall_w1 : ∀ a ∈ w1, isDigitCh a = false :=
    fun a ha => space_not_digit a (List.mem_takeWhile_imp ha)
  have hall_w2 : ∀ a ∈ w2, isDigitCh a = false :=
    fun a ha => space_not_digit a (List.mem_takeWhile_imp ha)
  have hall_d2 : ∀ a ∈ d2, isDigitCh a = true := fun a ha => List.mem_takeWhile_imp ha
  have hall_w3 : ∀ a ∈ w3, isDigitCh a = false :=
    fun a ha => space_not_digit a (List.mem_takeWhile_imp ha)
  have hlen1' : d1.length ≤ 2 := by
    simp only [Bool.or_eq_true, decide_eq_true_eq] at hlen1
    omega
  have hlen2' : d2.length ≤ 2 := by
    simp only [Bool.or_eq_true, decide_eq_true_eq] at hlen2
    omega
  -- the tail after the day digits: spaces plus an optional 日/号
  have htail : ∀ k, run4 r5 k = false := by
    intro k
    have hsplit5 : w3 ++ r5.dropWhile pyIsSpace = r5 := List.takeWhile_append_dropWhile ..
    have hr6 : ∀ a ∈ r5.dropWhile pyIsSpace, isDigitCh a = false := by
      split at h
      · intro a ha
        rw [‹r5.dropWhile pyIsSpace = []›] at ha
        exact absurd ha (by simp)
      case h_2 c2 heq =>
        split at h
        case isTrue hc2 =>
          intro a ha
          rw [heq] at ha
          simp only [List.mem_singleton] at ha
          subst ha
          rcases Bool.or_eq_true .. |>.mp hc2 with h9 | h9 <;>
            · rw [decide_eq_true_eq] at h9; subst h9; rfl
        case isFalse => exact absurd h (by simp)
      · exact absurd h (by simp)
    rw [← hsplit5]
    have : ∀ a ∈ w3 ++ r5.dropWhile pyIsSpace, isDigitCh a = false := by
      intro a ha
      rcases List.mem_append.mp ha with h' | h'
      · exact hall_w3 a h'
      · exact hr6 a h'
    exact run4_all_nondigit _ this k
  have hmonth : isDigitCh '月' = false := rfl
  -- assemble
  unfold hasFourDigitRun
  rw [← hsplit1, run4_digits d1 r1 0 hall_d1 (by omega), ← hsplit2]
  rw [show w1 ++ (c :: r3) = (w1 ++ [c]) ++ r3 by simp]
  rw [run4_nondigit_front (w1 ++ [c]) r3 ?_ (by simp) _]
  · rw [← hsplit3, run4_nondigit_front0 w2 r4 hall_w2, ← hsplit4]
    rw [run4_digits d2 r5 0 hall_d2 (by omega)]
    exact htail _
  · intro a ha
    rcases List.mem_append.mp ha with h' | h'
    · exact hall_w1 a h'
    · simp only [List.mem_singleton] at h'
      subst h'
      rw [hc]
      exact hmonth

/-- Parsing the empty string always fails. -/
theorem parse_empty_none (cur : PyDate) : _parse_expire_date_str "" cur = none := rfl

/-- C3: `infer_expire_date` resolves expiry with strict precedence: a
parseable explicit absolute date string wins over every relative-duration
argument; otherwise the relative arguments are checked in the fixed order
months, then trading days, then natural days, and only the first non-null of
the three is honored; if nothing matches the result is null, and every
non-null result is an ISO `YYYY-MM-DD` string (the `isoformat` of some
date). -/
theorem infer_expire_date_precedence (cur : PyDate) (ed : Option String)
    (qm : Option ℚ) (nd td : Option ℤ) :
    (∀ s d, ed = some s → _parse_expire_date_str s cur = some d →
        infer_expire_date cur ed qm nd td = some d.isoformat)
    ∧ ((∀ s, ed = some s → _parse_expire_date_str s cur = none) →
        (∀ m, qm = some m →
            infer_expire_date cur ed qm nd td = some (add_months cur m).isoformat)
        ∧ (qm = none → ∀ t, td = some t →
            infer_expire_date cur ed qm nd td
              = some (add_trading_days_weekends_only cur t).isoformat)
        ∧ (qm = none → td = none → ∀ n, nd = some n →
            infer_expire_date cur ed qm nd td
              = some (add_natural_days cur n).isoformat)
        ∧ (qm = none → td = none → nd = none →
            infer_expire_date cur ed qm nd td = none))
    ∧ (∀ r, infer_expire_date cur ed qm nd td = some r →
        ∃ dd : PyDate, r = dd.isoformat) := by
  refine ⟨?_, ?_, ?_⟩
  · intro s d hed hparse
    subst hed
    unfold infer_expire_date
    by_cases hs : s.isEmpty
    · rw [(String.isEmpty_iff s).mp hs] at hparse
      rw [parse_empty_none] at hparse
      exact absurd hparse (by simp)
    · simp only [hs, Bool.false_eq_true, if_false, hparse]
  · intro hnoparse
    refine ⟨?_, ?_, ?_, ?_⟩
    · intro m hm
      subst hm
      cases ed with
      | none => rfl
      | some s =>
        unfold infer_expire_date
        by_cases hs : s.isEmpty <;> simp [hs, hnoparse s rfl]
    · intro hq t ht
      subst hq; subst ht
      cases ed with
      | none => rfl
      | some s =>
        unfold infer_expire_date
        by_cases hs : s.isEmpty <;> simp [hs, hnoparse s rfl]
    · intro hq ht n hn
      subst hq; subst ht; subst hn
      cases ed with
      | none => rfl
      | some s =>
        unfold infer_expire_date
        by_cases hs : s.isEmpty <;> simp [hs, hnoparse s rfl]
    · intro hq ht hn
      subst hq; subst ht; subst hn
      cases ed with
      | none => rfl
      | some s =>
        unfold infer_expire_date
        by_cases hs : s.isEmpty <;> simp [hs, hnoparse s rfl]
  · intro r hr
    unfold infer_expire_date at hr
    dsimp only at hr
    repeat' split at hr
    all_goals
      first
        | exact ⟨_, (Option.some_inj.mp hr).symm⟩
        | exact absurd hr (by simp)

/-- C8: the explicit absolute expiry-date string is handled by two pattern
branches, the strict year-first absolute pattern and the localized M月D日
pattern; the two patterns are mutually exclusive (a month-day match has no
4-digit run), so the code's branch order is observationally the order
stated by the specification (absolute first); a string matching the
month-day pattern but forming an invalid calendar date makes the branch
not match, and the caller then falls through to the relative-duration
tier, no exception being propagated (every branch is total, returning
`none`). -/
theorem parse_expire_date_spec_order (s : String) (cur : PyDate) (m d : ℤ) (qm : ℚ) :
    _parse_expire_date_str s cur = parseExpireDateSpecOrder s cur
    ∧ (matchMonthDay (pyStrip s).toList = some (m, d) →
        ¬ validDate (_infer_year_for_month_day cur m d) m d →
        _parse_expire_date_str s cur = none)
    ∧ (_parse_expire_date_str s cur = none →
        infer_expire_date cur (some s) (some qm) none none
          = some (add_months cur qm).isoformat) := by
  refine ⟨?_, ?_, ?_⟩
  · unfold _parse_expire_date_str parseExpireDateSpecOrder
    cases heq : matchMonthDay (pyStrip s).toList with
    | some md =>
      have hfour := matchMonthDay_no_four_run _ _ heq
      simp only [heq, hfour, Bool.false_eq_true, if_false]
    | none =>
      simp only [heq]
      cases hfour : hasFourDigitRun (pyStrip s).toList with
      | false => simp
      | true =>
        simp only [if_true]
        cases dateutilParse (pyStrip s).toList <;> simp
  · intro hmd hnv
    unfold _parse_expire_date_str
    simp only [hmd, hnv, if_false]
  · intro hparse
    unfold infer_expire_date
    by_cases hs : s.isEmpty <;> simp [hs, hparse]

/-- Witness for C3 at the specification's own example: the absolute date
beats the one-month relative duration. -/
theorem infer_expire_date_precedence_witness :
    infer_expire_date (PyDate.mk 2026 2 12) (some "2026-04-15") (some 1) none none
      = some "2026-04-15" := by
  have h := (infer_expire_date_precedence (PyDate.mk 2026 2 12)
      (some "2026-04-15") (some 1) none none).1
    "2026-04-15" (PyDate.mk 2026 4 15) rfl (by decide)
  rw [h]
  decide

/-- Witness for C8: the malformed calendar date 2月30日 makes the month-day
branch fail without an exception, and resolution falls through to the
one-month relative duration. -/
theorem parse_expire_date_spec_order_witness :
    _parse_expire_date_str "2月30日" (PyDate.mk 2026 2 12) = none
    ∧ infer_expire_date (PyDate.mk 2026 2 12) (some "2月30日") (some 1) none none
        = some "2026-03-12" := by
  have h2 := (parse_expire_date_spec_order "2月30日" (PyDate.mk 2026 2 12) 2 30 1).2.1
    (by decide) (by decide)
  have h3 := (parse_expire_date_spec_order "2月30日" (PyDate.mk 2026 2 12) 2 30 1).2.2 h2
  refine ⟨h2, ?_⟩
  rw [h3, show (1 : ℚ) = ((1 : ℤ) : ℚ) by norm_num, add_months_intCast]
  decide

/-- C1: for every call to `normalize_quote`, whatever combination of
arguments is supplied, the returned record's strike equals the strike
argument; whenever that strike is non-null the returned strike_offset is
null (and when the strike is null the offset argument passes through); in
particular with both `strike = 3500.0` and `strike_offset = -30.0` the
output keeps the strike and nulls the offset. -/
theorem normalize_quote_strike_wins (sfmt : List (String × String)) (cur : PyDate)
    (cp bs : Option ℤ) (st sof up : Option ℚ) (ed : Option String) (qm : Option ℚ)
    (nd td : Option ℤ) (pc : Option String) (cm cy : Option ℤ) (qty : Option ℚ) :
    (normalize_quote sfmt cur cp bs st sof up ed qm nd td pc cm cy qty).strike = st
    ∧ (∀ v, (normalize_quote sfmt cur cp bs st sof up ed qm nd td pc cm cy qty).strike = some v →
        (normalize_quote sfmt cur cp bs st sof up ed qm nd td pc cm cy qty).strike_offset = none)
    ∧ (st = none →
        (normalize_quote sfmt cur cp bs st sof up ed qm nd td pc cm cy qty).strike_offset = sof)
    ∧ (normalize_quote sfmt cur cp bs (some 3500) (some (-30)) up ed qm nd td pc cm cy qty).strike
        = some 3500
    ∧ (normalize_quote sfmt cur cp bs (some 3500) (some (-30)) up ed qm nd td pc cm cy qty).strike_offset
        = none := by
  refine ⟨rfl, ?_, ?_, rfl, rfl⟩
  · intro v hv
    cases st with
    | none => exact absurd hv (by simp [normalize_quote])
    | some s => rfl
  · intro h
    subst h
    rfl

/-- Witness for C1 at the specification's example inputs. -/
theorem normalize_quote_strike_wins_witness :
    (normalize_quote [] (PyDate.mk 2026 2 12) none none (some 3500) (some (-30))
        none none none none none none none none none).strike_offset = none :=
  (normalize_quote_strike_wins [] (PyDate.mk 2026 2 12) none none (some 3500)
      (some (-30)) none none none none none none none none none).2.1 3500 rfl

/-- C7 counterexample: on a malformed product code, an out-of-range month,
and a negative contract year, `build_contract_code_from_parts` returns a
null result and raises nothing — contradicting the claim that these
caller-contract violations produce a hard failure rather than null. -/
theorem build_contract_code_bad_input_cex :
    build_contract_code_from_parts [] (PyDate.mk 2026 2 12) (some "H1") (some 5) none = none
    ∧ build_contract_code_from_parts [] (PyDate.mk 2026 2 12) (some "HC") (some 13) none = none
    ∧ build_contract_code_from_parts [] (PyDate.mk 2026 2 12) (some "HC") (some 5) (some (-1))
        = none := by
  refine ⟨by decide, by decide, by decide⟩

/-- C7 (amended): `build_contract_code_from_parts` answers
programmer-caller contract violations with a null result, not an
exception: a product code containing non-letter characters, a month
outside 1..12, or a negative explicit contract year all yield `none`
(argument-validation exceptions exist only at the tool boundary, outside
this function). -/
theorem build_contract_code_null_on_bad_input (sfmt : List (String × String))
    (cur : PyDate) (pc : String) (cm : ℤ) (cy : Option ℤ) :
    ((∃ c ∈ (upperStr (pyStrip pc).toList).toList, isUpperAlpha c = false) →
        build_contract_code_from_parts sfmt cur (some pc) (some cm) cy = none)
    ∧ (¬(1 ≤ cm ∧ cm ≤ 12) →
        build_contract_code_from_parts sfmt cur (some pc) (some cm) cy = none)
    ∧ (∀ y, cy = some y → y < 0 →
        build_contract_code_from_parts sfmt cur (some pc) (some cm) cy = none) := by
  refine ⟨?_, ?_, ?_⟩
  · rintro ⟨c, hc, hbad⟩
    have hall : ((upperStr (pyStrip pc).toList).toList.all isUpperAlpha) = false := by
      rw [Bool.eq_false_iff]
      intro hall
      rw [List.all_eq_true] at hall
      rw [hall c hc] at hbad
      exact absurd hbad (by simp)
    have hfm : fullmatchUpper16 (upperStr (pyStrip pc).toList).toList = false := by
      unfold fullmatchUpper16
      rw [hall]
      simp
    unfold build_contract_code_from_parts
    dsimp only
    by_cases hemp : pc.isEmpty
    · rw [if_pos hemp]
    · rw [if_neg hemp, hfm]
      simp
  · intro hm
    unfold build_contract_code_from_parts
    dsimp only
    by_cases hemp : pc.isEmpty
    · rw [if_pos hemp]
    · rw [if_neg hemp]
      cases hfm : fullmatchUpper16 (upperStr (pyStrip pc).toList).toList
      · simp
      · rw [if_pos rfl, if_neg hm]
  · intro y hy hneg
    subst hy
    have hres : _resolve_contract_year cm cur (some y) = none := by
      unfold _resolve_contract_year
      simp [hneg]
    unfold build_contract_code_from_parts
    dsimp only
    by_cases hemp : pc.isEmpty
    · rw [if_pos hemp]
    · rw [if_neg hemp]
      cases hfm : fullmatchUpper16 (upperStr (pyStrip pc).toList).toList
      · simp
      · rw [if_pos rfl]
        by_cases hm : 1 ≤ cm ∧ cm ≤ 12
        · rw [if_pos hm, hres]
        · rw [if_neg hm]

/-- Witness for the amended C7: a malformed product code gives null. -/
theorem build_contract_code_null_on_bad_input_witness :
    build_contract_code_from_parts [] (PyDate.mk 2026 2 12) (some "H1") (some 5) none
      = none :=
  (build_contract_code_null_on_bad_input [] (PyDate.mk 2026 2 12) "H1" 5 none).1
    ⟨'1', by decide, by decide⟩

/-- C10: `infer_buy_sell` returns a customer direction (1 = customer buys,
-1 = customer sells) only when exactly one direction is signaled by the
text; when both directions are signaled it returns null — in particular on
text containing both 我方买 and 客户买. -/
theorem infer_buy_sell_unique_direction (text : String) :
    (infer_buy_sell text = some 1 → buySignal text = true ∧ sellSignal text = false)
    ∧ (infer_buy_sell text = some (-1) → sellSignal text = true ∧ buySignal text = false)
    ∧ (buySignal text = true → sellSignal text = true → infer_buy_sell text = none)
    ∧ (∀ z, infer_buy_sell text = some z → z = 1 ∨ z = -1)
    ∧ infer_buy_sell "我方买，客户买" = none := by
  refine ⟨?_, ?_, ?_, ?_, by decide⟩ <;>
    cases hb : buySignal text <;> cases hs : sellSignal text <;>
      simp [infer_buy_sell, hb, hs]

/-- Witness for C10 at the specification's conflicting example. -/
theorem infer_buy_sell_unique_direction_witness :
    infer_buy_sell "我方买钢卷，客户买看涨期权" = none :=
  (infer_buy_sell_unique_direction "我方买钢卷，客户买看涨期权").2.2.1
    (by decide) (by decide)

/-- C4 counterexample: on "hc 2610" the claim's reading (product token
*directly* followed by the four digits) matches nothing — the month-only
fallback cannot match a 4-digit run either — so the claimed behavior is
null; the code's regex allows whitespace between token and digits (`\s*`)
and returns HC2610. -/
theorem infer_contract_code_adjacency_cex :
    inferContractCodeClaimed "hc 2610" (PyDate.mk 2026 2 12) = none
    ∧ infer_contract_code "hc 2610" (PyDate.mk 2026 2 12) = some "HC2610"
    ∧ infer_contract_code "hc 2610" (PyDate.mk 2026 2 12)
        ≠ inferContractCodeClaimed "hc 2610" (PyDate.mk 2026 2 12) := by
  refine ⟨by decide, by decide, by decide⟩

/-- C4 (amended): `infer_contract_code` first matches a 1-6 letter product
token (case-insensitive, not preceded by a letter) followed — optionally
across whitespace — by exactly 4 digits, and when the last two digits form
a month in 1..12 returns the uppercased token plus the 4 digits unchanged
(else null, with no fallback); on pattern failure it falls back to the
1-2 digit month-only pattern, returning product + 2-digit year + 2-digit
month with the year equal to the current year when the month is at least
the current month and the next year (mod 100, 99→00) otherwise; if
neither pattern matches it returns null. -/
theorem infer_contract_code_amended (t : String) (cur : PyDate) :
    (∀ run digits, scanPat lenEq4 false (pyStrip t).toList = some (run, digits) →
        ((1 ≤ digitsVal (digits.drop 2) ∧ digitsVal (digits.drop 2) ≤ 12) →
            infer_contract_code t cur = some (upperStr run ++ String.mk digits))
        ∧ (¬(1 ≤ digitsVal (digits.drop 2) ∧ digitsVal (digits.drop 2) ≤ 12) →
            infer_contract_code t cur = none))
    ∧ (scanPat lenEq4 false (pyStrip t).toList = none →
       ∀ run digits, scanPat lenLe2 false (pyStrip t).toList = some (run, digits) →
        ((1 ≤ digitsVal digits ∧ digitsVal digits ≤ 12) →
            infer_contract_code t cur
              = some (upperStr run
                  ++ intPad (if digitsVal digits < cur.month then (cur.year % 100 + 1) % 100
                             else cur.year % 100) 2
                  ++ intPad (digitsVal digits) 2))
        ∧ (¬(1 ≤ digitsVal digits ∧ digitsVal digits ≤ 12) →
            infer_contract_code t cur = none))
    ∧ (scanPat lenEq4 false (pyStrip t).toList = none →
        scanPat lenLe2 false (pyStrip t).toList = none →
        infer_contract_code t cur = none)
    ∧ infer_contract_code "hc10" (PyDate.mk 2026 2 12) = some "HC2610"
    ∧ infer_contract_code "hc01" (PyDate.mk 2026 11 30) = some "HC2701"
    ∧ infer_contract_code "HC2610" (PyDate.mk 2026 2 12) = some "HC2610" := by
  refine ⟨?_, ?_, ?_, by decide, by decide, by decide⟩
  · intro run digits hscan
    constructor
    · intro hmm
      unfold infer_contract_code
      simp only [hscan]
      rw [if_pos hmm]
    · intro hmm
      unfold infer_contract_code
      simp only [hscan]
      rw [if_neg hmm]
  · intro h4 run digits hscan
    constructor
    · intro hmm
      unfold infer_contract_code
      simp only [h4, hscan]
      rw [if_pos hmm]
    · intro hmm
      unfold infer_contract_code
      simp only [h4, hscan]
      rw [if_neg hmm]
  · intro h4 h2
    unfold infer_contract_code
    simp only [h4, h2]

/-- Witness for the amended C4: the YYMM path applied at hc2610. -/
theorem infer_contract_code_amended_witness :
    infer_contract_code "hc2610" (PyDate.mk 2026 2 12) = some "HC2610" := by
  have h := ((infer_contract_code_amended "hc2610" (PyDate.mk 2026 2 12)).1
      (String.toList "hc") (String.toList "2610") (by decide)).1 (by decide)
  rw [h]
  decide

theorem digit_not_alpha (c : Char) (h : isDigitCh c = true) : isAsciiAlpha c = false := by
  unfold isDigitCh at h
  unfold isAsciiAlpha
  simp only [Bool.and_eq_true, decide_eq_true_eq] at h
  simp only [Bool.or_eq_false_iff, Bool.and_eq_false_iff, decide_eq_false_iff_not]
  omega

theorem digit_not_space (c : Char) (h : isDigitCh c = true) : pyIsSpace c = false := by
  unfold isDigitCh at h
  unfold pyIsSpace
  simp only [Bool.and_eq_true, decide_eq_true_eq] at h
  simp only [Bool.or_eq_false_iff, decide_eq_false_iff_not]
  omega

theorem upper_is_alpha (c : Char) (h : isUpperAlpha c = true) : isAsciiAlpha c = true := by
  unfold isUpperAlpha at h
  unfold isAsciiAlpha
  simp only [Bool.and_eq_true, decide_eq_true_eq] at h
  simp only [Bool.or_eq_true, Bool.and_eq_true, decide_eq_true_eq]
  omega

theorem upper_not_space (c : Char) (h : isUpperAlpha c = true) : pyIsSpace c = false := by
  unfold isUpperAlpha at h
  unfold pyIsSpace
  simp only [Bool.and_eq_true, decide_eq_true_eq] at h
  simp only [Bool.or_eq_false_iff, decide_eq_false_iff_not]
  omega

theorem dropWhile_all_false (p : Char → Bool) (l : List Char)
    (h : ∀ c ∈ l, p c = false) : l.dropWhile p = l := by
  cases l with
  | nil => rfl
  | cons c cs =>
    rw [List.dropWhile_cons, h c (by simp)]
    simp

theorem pyStrip_eq_self (s : String) (h : ∀ c ∈ s.toList, pyIsSpace c = false) :
    pyStrip s = s := by
  unfold pyStrip
  rw [dropWhile_all_false _ _ h,
    dropWhile_all_false _ _ (fun c hc => h c (List.mem_reverse.mp hc)),
    List.reverse_reverse]
  rfl

theorem pyUpperChar_upper (c : Char) (h : isUpperAlpha c = true) : pyUpperChar c = c := by
  unfold isUpperAlpha at h
  unfold pyUpperChar
  simp only [Bool.and_eq_true, decide_eq_true_eq] at h
  rw [if_neg]
  simp only [Bool.and_eq_true, decide_eq_true_eq, not_and]
  omega

theorem upperStr_upper (cs : List Char) (h : ∀ c ∈ cs, isUpperAlpha c = true) :
    upperStr cs = String.mk cs := by
  unfold upperStr
  congr 1
  induction cs with
  | nil => rfl
  | cons c cs ih =>
    rw [List.map_cons, pyUpperChar_upper c (h c (by simp)),
      ih (fun x hx => h x (List.mem_cons_of_mem _ hx))]

theorem string_mk_toList (s : String) : String.mk s.toList = s := rfl

theorem string_mk_append (a b : List Char) :
    String.mk (a ++ b) = String.mk a ++ String.mk b := rfl

/-- Evaluation of `build_contract_code_from_parts` on a canonical
(uppercase, 1-6 letter) product code: the strip/upper pass is the identity
and the guards are met, leaving the year resolution and formatting. -/
theorem build_parts_canonical (sfmt : List (String × String)) (cur : PyDate)
    (P : String) (cm : ℤ) (cy : Option ℤ)
    (hP : fullmatchUpper16 P.toList = true) (hm : 1 ≤ cm ∧ cm ≤ 12) :
    build_contract_code_from_parts sfmt cur (some P) (some cm) cy
      = match _resolve_contract_year cm cur cy with
        | none => none
        | some year => some (contractFormat sfmt P year cm) := by
  unfold fullmatchUpper16 at hP
  simp only [Bool.and_eq_true, decide_eq_true_eq, List.all_eq_true] at hP
  obtain ⟨⟨h1, h6⟩, hall⟩ := hP
  have hns : ∀ c ∈ P.toList, pyIsSpace c = false :=
    fun c hc => upper_not_space c (hall c hc)
  have hstrip : pyStrip P = P := pyStrip_eq_self P hns
  have hupper : upperStr P.toList = P := by
    rw [upperStr_upper P.toList hall]
    rfl
  have hemp : P.isEmpty = false := by
    rw [Bool.eq_false_iff]
    intro he
    rw [(String.isEmpty_iff P).mp he] at h1
    exact absurd h1 (by decide)
  unfold build_contract_code_from_parts
  dsimp only
  rw [hemp]
  simp only [Bool.false_eq_true, if_false]
  rw [hstrip, hupper]
  have hfm : fullmatchUpper16 P.toList = true := by
    unfold fullmatchUpper16
    simp only [Bool.and_eq_true, decide_eq_true_eq, List.all_eq_true]
    exact ⟨⟨h1, h6⟩, hall⟩
  rw [hfm]
  simp only [if_true, hm, and_self]
  cases _resolve_contract_year cm cur cy with
  | none => rfl
  | some year =>
    unfold contractFormat
    by_cases hy : _uses_ymm_contract_suffix sfmt P = true
    · rw [hy]
      simp
    · rw [Bool.eq_false_iff.mpr hy]
      simp

theorem resolve_year_mid (cm : ℤ) (cur : PyDate) (y : ℤ) (h : 10 ≤ y ∧ y ≤ 99) :
    _resolve_contract_year cm cur (some y) = some y := by
  unfold _resolve_contract_year
  dsimp only
  rw [if_neg (by omega), if_neg (by omega), if_neg (by omega)]

theorem resolve_year_high (cm : ℤ) (cur : PyDate) (y : ℤ) (h : 100 ≤ y) :
    _resolve_contract_year cm cur (some y) = some (y % 100) := by
  unfold _resolve_contract_year
  dsimp only
  rw [if_neg (by omega), if_pos (by omega)]

theorem resolve_year_low (cm : ℤ) (cur : PyDate) (y : ℤ) (h : 0 ≤ y ∧ y ≤ 9) :
    _resolve_contract_year cm cur (some y)
      = some (if cur.year % 100 / 10 * 10 + y < cur.year % 100
                ∨ (cur.year % 100 / 10 * 10 + y = cur.year % 100 ∧ cm < cur.month)
              then cur.year % 100 / 10 * 10 + y + 10
              else cur.year % 100 / 10 * 10 + y) := by
  unfold _resolve_contract_year
  dsimp only
  rw [if_neg (by omega), if_neg (by omega), if_pos (by omega)]
  split <;> rfl

theorem resolve_year_noyear (cm : ℤ) (cur : PyDate) :
    _resolve_contract_year cm cur none
      = some (if cm < cur.month then (cur.year % 100 + 1) % 100
              else cur.year % 100) := rfl

/-- C5: `build_contract_code_from_parts`, given a 1-6 letter product code
and a month in 1..12, resolves the contract year as follows: an explicit
year of at least 100 is reduced mod 100; an explicit single-digit year
(1..9) is treated as the ones digit of a two-digit year, rolled forward by
10 when the candidate would be earlier than — or equal to with an earlier
month than — the current two-digit year; with no explicit year, the
current year is used when the month is at least the current month, else
the next year.  Products whose suffix format is YMM are formatted as
product + (year mod 10) + 2-digit month (e.g. OI605); all other products
as product + 2-digit year + 2-digit month. -/
theorem build_contract_code_year_resolution (sfmt : List (String × String))
    (cur : PyDate) (P : String) (cm : ℤ) (cy : Option ℤ)
    (hP : fullmatchUpper16 P.toList = true) (hm : 1 ≤ cm ∧ cm ≤ 12) :
    (∀ y, cy = some y → 100 ≤ y →
        build_contract_code_from_parts sfmt cur (some P) (some cm) cy
          = some (contractFormat sfmt P (y % 100) cm))
    ∧ (∀ y, cy = some y → 1 ≤ y → y ≤ 9 →
        build_contract_code_from_parts sfmt cur (some P) (some cm) cy
          = some (contractFormat sfmt P
              (if cur.year % 100 / 10 * 10 + y < cur.year % 100
                  ∨ (cur.year % 100 / 10 * 10 + y = cur.year % 100 ∧ cm < cur.month)
               then cur.year % 100 / 10 * 10 + y + 10
               else cur.year % 100 / 10 * 10 + y) cm))
    ∧ (cy = none →
        build_contract_code_from_parts sfmt cur (some P) (some cm) cy
          = some (contractFormat sfmt P
              (if cm < cur.month then (cur.year % 100 + 1) % 100
               else cur.year % 100) cm))
    ∧ (∀ yr, _uses_ymm_contract_suffix sfmt P = true →
        contractFormat sfmt P yr cm = P ++ toString (yr % 10) ++ intPad cm 2)
    ∧ (∀ yr, _uses_ymm_contract_suffix sfmt P = false →
        contractFormat sfmt P yr cm = P ++ intPad yr 2 ++ intPad cm 2)
    ∧ build_contract_code_from_parts OISuffixTable (PyDate.mk 2026 2 12)
        (some "oi") (some 5) (some 6) = some "OI605" := by
  refine ⟨?_, ?_, ?_, ?_, ?_, by decide⟩
  · intro y hy h100
    subst hy
    rw [build_parts_canonical sfmt cur P cm (some y) hP hm,
      resolve_year_high cm cur y h100]
  · intro y hy h1 h9
    subst hy
    rw [build_parts_canonical sfmt cur P cm (some y) hP hm,
      resolve_year_low cm cur y ⟨by omega, h9⟩]
  · intro hy
    subst hy
    rw [build_parts_canonical sfmt cur P cm none hP hm, resolve_year_noyear]
  · intro yr hymm
    unfold contractFormat
    rw [hymm]
    simp
  · intro yr hymm
    unfold contractFormat
    rw [hymm]
    simp

/-- Witness for C5: the YMM-suffix product OI with single-digit year 6. -/
theorem build_contract_code_year_resolution_witness :
    build_contract_code_from_parts OISuffixTable (PyDate.mk 2026 2 12)
      (some "OI") (some 5) (some 6) = some "OI605" := by
  have h := (build_contract_code_year_resolution OISuffixTable
      (PyDate.mk 2026 2 12) "OI" 5 (some 6) (by decide) (by decide)).2.1
    6 rfl (by decide) (by decide)
  rw [h]
  decide

theorem toList_mk (l : List Char) : (String.mk l).toList = l := rfl

theorem takeWhile_all_append (p : Char → Bool) (xs ys : List Char)
    (hx : ∀ c ∈ xs, p c = true)
    (hy : ∀ c, ys.head? = some c → p c = false) :
    (xs ++ ys).takeWhile p = xs ∧ (xs ++ ys).dropWhile p = ys := by
  induction xs with
  | nil =>
    cases ys with
    | nil => exact ⟨rfl, rfl⟩
    | cons c cs =>
      have hc := hy c rfl
      constructor
      · rw [List.nil_append, List.takeWhile_cons, hc]
        simp
      · rw [List.nil_append, List.dropWhile_cons, hc]
        simp
  | cons x xs ih =>
    have hpx := hx x (by simp)
    obtain ⟨ht, hd⟩ := ih (fun c hc => hx c (List.mem_cons_of_mem _ hc))
    constructor
    · rw [List.cons_append, List.takeWhile_cons, hpx]
      simp only [if_true, ht]
    · rw [List.cons_append, List.dropWhile_cons, hpx]
      simp only [if_true, hd]

/-- A maximal letter run of length 1..6 followed (with no whitespace, as
produced by the renderings used below) by a maximal digit run whose length
passes the quantifier is matched by the scanner at position 0. -/
theorem scanPat_match (lenOK : ℕ → Bool) (P D : List Char)
    (hP1 : P ≠ []) (hP6 : P.length ≤ 6)
    (hPa : ∀ c ∈ P, isAsciiAlpha c = true)
    (hD : ∀ c ∈ D, isDigitCh c = true)
    (hlen : lenOK D.length = true) :
    scanPat lenOK false (P ++ D) = some (P, D) := by
  have hDheadA : ∀ d, D.head? = some d → isAsciiAlpha d = false := by
    intro d hd'
    cases D with
    | nil => exact absurd hd' (by simp)
    | cons d0 D' =>
      simp only [List.head?_cons, Option.some_inj] at hd'
      exact hd' ▸ digit_not_alpha d0 (hD d0 (by simp))
  have hDheadS : ∀ d, D.head? = some d → pyIsSpace d = false := by
    intro d hd'
    cases D with
    | nil => exact absurd hd' (by simp)
    | cons d0 D' =>
      simp only [List.head?_cons, Option.some_inj] at hd'
      exact hd' ▸ digit_not_space d0 (hD d0 (by simp))
  obtain ⟨ht, hdw⟩ := takeWhile_all_append isAsciiAlpha P D hPa hDheadA
  have hdw2 : D.dropWhile pyIsSpace = D := by
    cases D with
    | nil => rfl
    | cons d0 D' =>
      rw [List.dropWhile_cons, hDheadS d0 rfl]
      simp
  have ht2 : D.takeWhile isDigitCh = D := by
    have h := takeWhile_all_append isDigitCh D [] hD (by intro c hc; simp at hc)
    rw [List.append_nil] at h
    exact h.1
  cases P with
  | nil => exact absurd rfl hP1
  | cons c P' =>
    rw [List.cons_append] at ht hdw ⊢
    have hca := hPa c (by simp)
    simp only [scanPat, hca, if_true, Bool.false_eq_true, if_false]
    rw [ht, hdw]
    rw [if_pos (by simpa using hP6)]
    rw [hdw2, ht2, if_pos hlen]

theorem scanPat_skip_alpha (lenOK : ℕ → Bool) (xs ys : List Char)
    (hx : ∀ c ∈ xs, isAsciiAlpha c = true) :
    scanPat lenOK true (xs ++ ys) = scanPat lenOK true ys := by
  induction xs with
  | nil => rfl
  | cons c xs ih =>
    have hca := hx c (by simp)
    rw [List.cons_append]
    simp only [scanPat, hca, if_true]
    exact ih (fun d hd => hx d (List.mem_cons_of_mem _ hd))

theorem scanPat_digits_none (lenOK : ℕ → Bool) (D : List Char)
    (hD : ∀ c ∈ D, isDigitCh c = true) :
    ∀ prev, scanPat lenOK prev D = none := by
  induction D with
  | nil => intro prev; rfl
  | cons c D' ih =>
    intro prev
    have hna := digit_not_alpha c (hD c (by simp))
    simp only [scanPat, hna, Bool.false_eq_true, if_false]
    exact ih (fun d hd => hD d (List.mem_cons_of_mem _ hd)) false

/-- When the digit-run length fails the quantifier, the scanner finds no
match anywhere in a letters-then-digits string. -/
theorem scanPat_no_match (lenOK : ℕ → Bool) (P D : List Char)
    (hP6 : P.length ≤ 6)
    (hPa : ∀ c ∈ P, isAsciiAlpha c = true)
    (hD : ∀ c ∈ D, isDigitCh c = true)
    (hlen : lenOK D.length = false) :
    scanPat lenOK false (P ++ D) = none := by
  have hDheadA : ∀ d, D.head? = some d → isAsciiAlpha d = false := by
    intro d hd'
    cases D with
    | nil => exact absurd hd' (by simp)
    | cons d0 D' =>
      simp only [List.head?_cons, Option.some_inj] at hd'
      exact hd' ▸ digit_not_alpha d0 (hD d0 (by simp))
  have hDheadS : ∀ d, D.head? = some d → pyIsSpace d = false := by
    intro d hd'
    cases D with
    | nil => exact absurd hd' (by simp)
    | cons d0 D' =>
      simp only [List.head?_cons, Option.some_inj] at hd'
      exact hd' ▸ digit_not_space d0 (hD d0 (by simp))
  obtain ⟨ht, hdw⟩ := takeWhile_all_append isAsciiAlpha P D hPa hDheadA
  have hdw2 : D.dropWhile pyIsSpace = D := by
    cases D with
    | nil => rfl
    | cons d0 D' =>
      rw [List.dropWhile_cons, hDheadS d0 rfl]
      simp
  have ht2 : D.takeWhile isDigitCh = D := by
    have h := takeWhile_all_append isDigitCh D [] hD (by intro c hc; simp at hc)
    rw [List.append_nil] at h
    exact h.1
  cases P with
  | nil => exact scanPat_digits_none lenOK D hD false
  | cons c P' =>
    rw [List.cons_append] at ht hdw ⊢
    have hca := hPa c (by simp)
    simp only [scanPat, hca, if_true, Bool.false_eq_true, if_false]
    rw [ht, hdw]
    rw [if_pos (by simpa using hP6)]
    rw [hdw2, ht2, hlen]
    simp only [Bool.false_eq_true, if_false]
    rw [scanPat_skip_alpha lenOK P' D (fun d hd => hPa d (List.mem_cons_of_mem _ hd))]
    exact scanPat_digits_none lenOK D hD true

/-- Two-digit zero-padded rendering of 0..99: exactly two digit characters
whose numeric value is the number itself. -/
theorem intPad2_digits (n : ℤ) (h0 : 0 ≤ n) (h99 : n ≤ 99) :
    (intPad n 2).toList.length = 2
    ∧ (∀ c ∈ (intPad n 2).toList, isDigitCh c = true)
    ∧ digitsVal (intPad n 2).toList = n := by
  interval_cases n <;> exact ⟨by decide, by decide, by decide⟩

/-- C6 counterexample: for the YMM-suffix product OI the two resolution
paths disagree on identical semantic input (product oi, two-digit year 26,
month 5): the parts-based path emits the single-year-digit code OI605
while the text path on "oi2605" emits OI2605 — `infer_contract_code` never
consults the suffix-format table. -/
theorem contract_code_paths_disagree :
    build_contract_code_from_parts OISuffixTable (PyDate.mk 2026 2 12)
        (some "oi") (some 5) (some 26) = some "OI605"
    ∧ infer_contract_code "oi2605" (PyDate.mk 2026 2 12) = some "OI2605"
    ∧ build_contract_code_from_parts OISuffixTable (PyDate.mk 2026 2 12)
          (some "oi") (some 5) (some 26)
        ≠ infer_contract_code "oi2605" (PyDate.mk 2026 2 12) := by
  refine ⟨by decide, by decide, by decide⟩

/-- C6 (amended): for every product code whose suffix format is not YMM,
the two contract-code resolution paths give identical results for
identical semantic input: `build_contract_code_from_parts` on a 1-6 letter
product, a month in 1..12 and an optional two-digit year equals
`infer_contract_code` on the text rendering of the same product and the
same year/month digits. -/
theorem contract_code_paths_agree (sfmt : List (String × String)) (cur : PyDate)
    (P : List Char) (cm y : ℤ)
    (hP1 : P ≠ []) (hP6 : P.length ≤ 6) (hPa : ∀ c ∈ P, isUpperAlpha c = true)
    (hm : 1 ≤ cm ∧ cm ≤ 12)
    (hymm : _uses_ymm_contract_suffix sfmt (String.mk P) = false) :
    (10 ≤ y → y ≤ 99 →
      build_contract_code_from_parts sfmt cur (some (String.mk P)) (some cm) (some y)
        = infer_contract_code
            (String.mk (P ++ (intPad y 2).toList ++ (intPad cm 2).toList)) cur)
    ∧ (build_contract_code_from_parts sfmt cur (some (String.mk P)) (some cm) none
        = infer_contract_code (String.mk (P ++ (intPad cm 2).toList)) cur) := by
  have hPlist : (String.mk P).toList = P := rfl
  have hfm : fullmatchUpper16 (String.mk P).toList = true := by
    unfold fullmatchUpper16
    rw [hPlist]
    simp only [Bool.and_eq_true, decide_eq_true_eq, List.all_eq_true]
    exact ⟨⟨by have := List.length_pos.mpr hP1; omega, hP6⟩, hPa⟩
  have hPalpha : ∀ c ∈ P, isAsciiAlpha c = true :=
    fun c hc => upper_is_alpha c (hPa c hc)
  obtain ⟨hmlen, hmdig, hmval⟩ := intPad2_digits cm (by omega) (by omega)
  have hformat : contractFormat sfmt (String.mk P) = fun year cm' =>
      String.mk P ++ intPad year 2 ++ intPad cm' 2 := by
    funext year cm'
    unfold contractFormat
    rw [hymm]
    simp
  constructor
  · intro h10 h99
    obtain ⟨hylen, hydig, hyval⟩ := intPad2_digits y (by omega) h99
    -- the build side
    rw [build_parts_canonical sfmt cur (String.mk P) cm (some y) hfm hm,
      resolve_year_mid cm cur y ⟨h10, h99⟩]
    dsimp only
    rw [hformat]
    -- the text side
    have hD : ∀ c ∈ (intPad y 2).toList ++ (intPad cm 2).toList, isDigitCh c = true := by
      intro c hc
      rcases List.mem_append.mp hc with h | h
      · exact hydig c h
      · exact hmdig c h
    have hns : ∀ c ∈ P ++ ((intPad y 2).toList ++ (intPad cm 2).toList),
        pyIsSpace c = false := by
      intro c hc
      rcases List.mem_append.mp hc with h | h
      · exact upper_not_space c (hPa c h)
      · exact digit_not_space c (hD c h)
    unfold infer_contract_code
    rw [List.append_assoc, pyStrip_eq_self _ (by rw [toList_mk]; exact hns), toList_mk]
    dsimp only
    rw [scanPat_match lenEq4 P ((intPad y 2).toList ++ (intPad cm 2).toList)
      hP1 hP6 hPalpha hD
      (by unfold lenEq4; rw [List.length_append, hylen, hmlen]; rfl)]
    dsimp only
    have hdrop : ((intPad y 2).toList ++ (intPad cm 2).toList).drop 2
        = (intPad cm 2).toList := by
      have h := List.drop_left (intPad y 2).toList (intPad cm 2).toList
      rw [hylen] at h
      exact h
    rw [hdrop, hmval, if_pos hm]
    rw [upperStr_upper P hPa, string_mk_append, string_mk_toList, string_mk_toList,
      ← String.append_assoc]
  · -- no explicit year: the month-only fallback
    rw [build_parts_canonical sfmt cur (String.mk P) cm none hfm hm,
      resolve_year_noyear]
    dsimp only
    rw [hformat]
    have hns : ∀ c ∈ P ++ (intPad cm 2).toList, pyIsSpace c = false := by
      intro c hc
      rcases List.mem_append.mp hc with h | h
      · exact upper_not_space c (hPa c h)
      · exact digit_not_space c (hmdig c h)
    unfold infer_contract_code
    rw [pyStrip_eq_self _ (by rw [toList_mk]; exact hns), toList_mk]
    dsimp only
    rw [scanPat_no_match lenEq4 P (intPad cm 2).toList hP6 hPalpha hmdig
      (by unfold lenEq4; rw [hmlen]; rfl)]
    rw [scanPat_match lenLe2 P (intPad cm 2).toList hP1 hP6 hPalpha hmdig
      (by unfold lenLe2; rw [hmlen]; rfl)]
    dsimp only
    rw [hmval, if_pos hm]
    rw [upperStr_upper P hPa]

/-- Witness for the amended C6: a non-YMM product agrees on both paths. -/
theorem contract_code_paths_agree_witness :
    build_contract_code_from_parts [] (PyDate.mk 2026 2 12)
        (some (String.mk ['H', 'C'])) (some 10) (some 26)
      = infer_contract_code
          (String.mk (['H', 'C'] ++ (intPad 26 2).toList ++ (intPad 10 2).toList))
          (PyDate.mk 2026 2 12) :=
  (contract_code_paths_agree [] (PyDate.mk 2026 2 12) ['H', 'C'] 10 26
      (by decide) (by decide) (by decide) (by decide) (by decide)).1
    (by decide) (by decide)

theorem pyRound_intCast (k : ℤ) : pyRound (k : ℚ) = k := by
  unfold pyRound
  rw [Int.floor_intCast]
  norm_num

theorem pyRound_mono (q r : ℚ) (h : q ≤ r) : pyRound q ≤ pyRound r := by
  unfold pyRound
  have hfl : ⌊q⌋ ≤ ⌊r⌋ := Int.floor_le_floor h
  dsimp only
  rcases eq_or_lt_of_le hfl with heq | hlt
  · rw [← heq]
    have hq : q - (⌊q⌋ : ℚ) ≤ r - (⌊q⌋ : ℚ) := by linarith
    split_ifs <;> first | omega | (exfalso; linarith)
  · split_ifs <;> omega

theorem round2_mono (q r : ℚ) (h : q ≤ r) : round2 q ≤ round2 r := by
  unfold round2
  have h1 : q * 100 ≤ r * 100 := by linarith
  have h2 : pyRound (q * 100) ≤ pyRound (r * 100) := pyRound_mono _ _ h1
  have h3 : ((pyRound (q * 100) : ℤ) : ℚ) ≤ ((pyRound (r * 100) : ℤ) : ℚ) :=
    Int.cast_le.mpr h2
  linarith

theorem round2_idem (q : ℚ) : round2 (round2 q) = round2 q := by
  unfold round2
  have h : ((pyRound (q * 100) : ℤ) : ℚ) / 100 * 100 = ((pyRound (q * 100) : ℤ) : ℚ) := by
    field_simp
  rw [h, pyRound_intCast]

theorem round2_zero : round2 0 = 0 := by
  norm_num [round2, pyRound]

theorem round2_hundred : round2 100 = 100 := by
  have h : (100 : ℚ) * 100 = ((10000 : ℤ) : ℚ) := by norm_num
  unfold round2
  rw [h, pyRound_intCast]
  norm_num

theorem bounded_score_mem (q : ℚ) : 0 ≤ bounded_score q ∧ bounded_score q ≤ 100 := by
  unfold bounded_score
  constructor
  · exact le_max_left 0 _
  · rcases le_or_lt q 100 with h | h
    · rw [min_eq_right h]
      rcases le_or_lt 0 q with h0 | h0
      · rw [max_eq_right h0]; exact h
      · rw [max_eq_left (by linarith)]; norm_num
    · rw [min_eq_left (by linarith)]
      rw [max_eq_right (by norm_num)]

theorem round2_bounded_mem (q : ℚ) :
    0 ≤ round2 (bounded_score q) ∧ round2 (bounded_score q) ≤ 100 := by
  obtain ⟨h0, h1⟩ := bounded_score_mem q
  constructor
  · have := round2_mono 0 (bounded_score q) h0
    rw [round2_zero] at this
    exact this
  · have := round2_mono (bounded_score q) 100 h1
    rw [round2_hundred] at this
    exact this

theorem upsertOpt_ne_none (o : Option ProductCandidate) (r : UpsertReq) :
    upsertOpt o r ≠ none := by
  cases o with
  | none => simp [upsertOpt]
  | some c =>
    simp only [upsertOpt]
    split <;> simp

/-- The candidate dict entry at a fixed code after one upsert: requests for
other codes leave it unchanged, a request for this code applies the
sequential step `upsertOpt`. -/
theorem find?_upsert (st : List ProductCandidate) (code aliasStr : String)
    (score : ℚ) (x : String) :
    (_upsert_candidate st code aliasStr score).find? (fun c => c.product_code == x)
      = if code = x
        then upsertOpt (st.find? (fun c => c.product_code == x))
               { code := code, aliasStr := aliasStr, score := score }
        else st.find? (fun c => c.product_code == x) := by
  induction st with
  | nil =>
    unfold _upsert_candidate
    dsimp only
    by_cases hcx : code = x
    · subst hcx
      simp [upsertOpt, List.find?]
    · rw [if_neg hcx]
      rw [List.find?_cons_of_neg _ (by simpa using hcx)]
  | cons c rest ih =>
    unfold _upsert_candidate
    dsimp only
    by_cases hcc : c.product_code = code
    · by_cases hsc : c.score < bounded_score score
      · rw [if_pos hcc, if_pos hsc]
        by_cases hcx : code = x
        · subst hcx
          rw [if_pos rfl]
          have hfindc : List.find? (fun d => d.product_code == code) (c :: rest)
              = some c := List.find?_cons_of_pos _ (by simpa using hcc)
          rw [hfindc]
          simp only [upsertOpt]
          rw [if_pos hsc]
          exact List.find?_cons_of_pos _ (by simp)
        · rw [if_neg hcx]
          rw [List.find?_cons_of_neg _ (by simpa using hcx),
            List.find?_cons_of_neg _ (by simpa using fun h => hcx (hcc.symm.trans h))]
      · rw [if_pos hcc, if_neg hsc]
        by_cases hcx : code = x
        · subst hcx
          rw [if_pos rfl]
          have hfindc : List.find? (fun d => d.product_code == code) (c :: rest)
              = some c := List.find?_cons_of_pos _ (by simpa using hcc)
          rw [hfindc]
          simp only [upsertOpt]
          rw [if_neg hsc]
        · rw [if_neg hcx]
    · rw [if_neg hcc]
      by_cases hcx2 : c.product_code = x
      · have hne : ¬ code = x := fun h => hcc (hcx2.trans h.symm)
        rw [if_neg hne]
        rw [List.find?_cons_of_pos _ (by simpa using hcx2),
          List.find?_cons_of_pos _ (by simpa using hcx2)]
      · rw [List.find?_cons_of_neg _ (by simpa using hcx2),
          List.find?_cons_of_neg _ (by simpa using hcx2), ih]

/-- The candidate dict entry at a fixed code after a request sequence is
the sequential fold of the requests for that code. -/
theorem find?_upsertAll (reqs : List UpsertReq) (x : String) :
    ∀ st : List ProductCandidate,
      (upsertAll st reqs).find? (fun c => c.product_code == x)
        = (codeReqs reqs x).foldl upsertOpt
            (st.find? (fun c => c.product_code == x)) := by
  induction reqs with
  | nil => intro st; rfl
  | cons r rs ih =>
    intro st
    unfold upsertAll at ih ⊢
    rw [List.foldl_cons, ih]
    unfold codeReqs
    rw [List.filter_cons]
    by_cases hrx : r.code = x
    · rw [if_pos (by simpa using hrx), List.foldl_cons]
      rw [find?_upsert, if_pos hrx]
    · rw [if_neg (by simpa using hrx)]
      rw [find?_upsert, if_neg hrx]

/-- The per-code fold maintains `GoodCand`. -/
theorem foldl_upsertOpt_invariant (x : String) (lst : List UpsertReq)
    (hlst : ∀ r ∈ lst, r.code = x) :
    ∀ (pre : List UpsertReq) (o : Option ProductCandidate),
      (o = none → pre = []) →
      (∀ c0, o = some c0 → c0.product_code = x ∧ GoodCand pre c0) →
      ∀ c, lst.foldl upsertOpt o = some c →
        c.product_code = x ∧ GoodCand (pre ++ lst) c := by
  induction lst with
  | nil =>
    intro pre o _ hsome c hc
    rw [List.foldl_nil] at hc
    rw [List.append_nil]
    exact hsome c hc
  | cons r rs ih =>
    intro pre o hnone hsome c hc
    rw [List.foldl_cons] at hc
    have hrx : r.code = x := hlst r (by simp)
    have hrs : ∀ r' ∈ rs, r'.code = x := fun r' h => hlst r' (List.mem_cons_of_mem _ h)
    have hstep : ∀ c0, upsertOpt o r = some c0 →
        c0.product_code = x ∧ GoodCand (pre ++ [r]) c0 := by
      intro c0 hc0
      cases o with
      | none =>
        have hpre : pre = [] := hnone rfl
        subst hpre
        unfold upsertOpt at hc0
        rw [Option.some_inj] at hc0
        subst hc0
        refine ⟨hrx, ⟨r, by simp, rfl, rfl, rfl⟩, ?_⟩
        intro r' hr' _
        simp only [List.nil_append, List.mem_singleton] at hr'
        subst hr'
        exact le_refl _
      | some c1 =>
        obtain ⟨hc1x, ⟨r0, hr0mem, hr0code, hr0alias, hr0score⟩, hbound⟩ :=
          hsome c1 rfl
        have hfix : round2 c1.score = c1.score := by
          rw [hr0score, round2_idem]
        simp only [upsertOpt] at hc0
        by_cases hlt : c1.score < bounded_score r.score
        · rw [if_pos hlt, Option.some_inj] at hc0
          subst hc0
          refine ⟨hrx, ⟨r, by simp, rfl, rfl, rfl⟩, ?_⟩
          intro r' hr' hcode'
          rcases List.mem_append.mp hr' with h' | h'
          · have hb' := hbound r' h' (by rw [hcode', hrx, hc1x])
            calc round2 (bounded_score r'.score)
                = round2 (round2 (bounded_score r'.score)) := (round2_idem _).symm
              _ ≤ round2 (bounded_score r.score) :=
                  round2_mono _ _ (by linarith)
          · simp only [List.mem_singleton] at h'
            subst h'
            exact le_refl _
        · rw [if_neg hlt, Option.some_inj] at hc0
          subst hc0
          refine ⟨hc1x, ⟨r0, List.mem_append_left _ hr0mem, hr0code, hr0alias, hr0score⟩, ?_⟩
          intro r' hr' hcode'
          rcases List.mem_append.mp hr' with h' | h'
          · exact hbound r' h' hcode'
          · simp only [List.mem_singleton] at h'
            subst h'
            have hble : bounded_score r'.score ≤ c1.score := not_lt.mp hlt
            calc round2 (bounded_score r'.score)
                ≤ round2 c1.score := round2_mono _ _ hble
              _ = c1.score := hfix
    have hnone' : upsertOpt o r = none → pre ++ [r] = [] :=
      fun h => absurd h (upsertOpt_ne_none o r)
    have := ih hrs (pre ++ [r]) (upsertOpt o r) hnone' hstep c hc
    rwa [List.append_assoc, List.singleton_append] at this

theorem upsert_keys_subset (st : List ProductCandidate) (code aliasStr : String)
    (score : ℚ) :
    ∀ k, k ∈ (_upsert_candidate st code aliasStr score).map (fun c => c.product_code) →
      k ∈ st.map (fun c => c.product_code) ∨ k = code := by
  induction st with
  | nil =>
    intro k hk
    simp [_upsert_candidate] at hk
    exact Or.inr hk
  | cons c rest ih =>
    intro k hk
    unfold _upsert_candidate at hk
    dsimp only at hk
    by_cases hcc : c.product_code = code
    · rw [if_pos hcc] at hk
      by_cases hsc : c.score < bounded_score score
      · rw [if_pos hsc] at hk
        simp only [List.map_cons, List.mem_cons] at hk
        rcases hk with hk | hk
        · exact Or.inr hk
        · exact Or.inl (by simp [hk])
      · rw [if_neg hsc] at hk
        exact Or.inl hk
    · rw [if_neg hcc] at hk
      simp only [List.map_cons, List.mem_cons] at hk
      rcases hk with hk | hk
      · exact Or.inl (by simp [hk])
      · rcases ih k hk with h | h
        · exact Or.inl (by simp only [List.map_cons, List.mem_cons]; exact Or.inr h)
        · exact Or.inr h

theorem upsert_keys_nodup (st : List ProductCandidate) (code aliasStr : String)
    (score : ℚ) (h : (st.map (fun c => c.product_code)).Nodup) :
    ((_upsert_candidate st code aliasStr score).map (fun c => c.product_code)).Nodup := by
  induction st with
  | nil => simp [_upsert_candidate]
  | cons c rest ih =>
    rw [List.map_cons, List.nodup_cons] at h
    obtain ⟨hnotin, hrest⟩ := h
    unfold _upsert_candidate
    dsimp only
    by_cases hcc : c.product_code = code
    · rw [if_pos hcc]
      by_cases hsc : c.score < bounded_score score
      · rw [if_pos hsc]
        rw [List.map_cons, List.nodup_cons]
        exact ⟨by rw [← hcc]; exact hnotin, hrest⟩
      · rw [if_neg hsc]
        rw [List.map_cons, List.nodup_cons]
        exact ⟨hnotin, hrest⟩
    · rw [if_neg hcc]
      rw [List.map_cons, List.nodup_cons]
      refine ⟨?_, ih hrest⟩
      intro hmem
      rcases upsert_keys_subset rest code aliasStr score _ hmem with h | h
      · exact hnotin h
      · exact hcc h

theorem upsertAll_keys_nodup (reqs : List UpsertReq) :
    ∀ st : List ProductCandidate, (st.map (fun c => c.product_code)).Nodup →
      ((upsertAll st reqs).map (fun c => c.product_code)).Nodup := by
  induction reqs with
  | nil => intro st h; exact h
  | cons r rs ih =>
    intro st h
    unfold upsertAll
    rw [List.foldl_cons]
    exact ih _ (upsert_keys_nodup st r.code r.aliasStr r.score h)

theorem find?_eq_of_mem_nodup (l : List ProductCandidate)
    (h : (l.map (fun c => c.product_code)).Nodup) (c : ProductCandidate) (hc : c ∈ l) :
    l.find? (fun d => d.product_code == c.product_code) = some c := by
  induction l with
  | nil => exact absurd hc (by simp)
  | cons a rest ih =>
    rw [List.map_cons, List.nodup_cons] at h
    obtain ⟨hnotin, hrest⟩ := h
    rcases List.mem_cons.mp hc with hc | hc
    · subst hc
      exact List.find?_cons_of_pos _ (by simp)
    · have hne : (a.product_code == c.product_code) = false := by
        rw [beq_eq_false_iff_ne]
        intro hcontra
        exact hnotin (hcontra ▸ List.mem_map_of_mem (fun d => d.product_code) hc)
      rw [List.find?_cons_of_neg _ (by simp [hne])]
      exact ih hrest hc

theorem candLE_trans (a b c : ProductCandidate)
    (hab : candLE a b = true) (hbc : candLE b c = true) : candLE a c = true := by
  unfold candLE at *
  rw [decide_eq_true_eq] at *
  rcases hab with h1 | ⟨h1, h1'⟩ <;> rcases hbc with h2 | ⟨h2, h2'⟩
  · exact Or.inl (lt_trans h2 h1)
  · exact Or.inl (h2 ▸ h1)
  · exact Or.inl (h1 ▸ h2)
  · exact Or.inr ⟨h1.trans h2, le_trans h1' h2'⟩

theorem candLE_total (a b : ProductCandidate) :
    (candLE a b || candLE b a) = true := by
  unfold candLE
  rw [Bool.or_eq_true, decide_eq_true_eq, decide_eq_true_eq]
  rcases lt_trichotomy a.score b.score with h | h | h
  · exact Or.inr (Or.inl h)
  · rcases le_total a.product_code b.product_code with hc | hc
    · exact Or.inl (Or.inr ⟨h, hc⟩)
    · exact Or.inr (Or.inr ⟨h.symm, hc⟩)
  · exact Or.inl (Or.inl h)

/-- C2: for every query string and every `top_k` (and every alias table,
NFKC model and fuzzy scorer), `find_product_candidates` returns the empty
sequence when `top_k <= 0` or the normalized query is empty (never
raising: the function is total); otherwise it returns at most `top_k`
candidates with at most one candidate per product code — for each code
only the highest-scoring matched alias is kept, its score clamped to
[0,100] and rounded to 2 decimals (the kept candidate carries one of the
upserted aliases for its code, its stored score is that alias's clamped
2-decimal-rounded score, and no alias upserted for the code has a larger
clamped rounded score) — sorted by score descending and then product code
ascending. -/
theorem find_product_candidates_correct (nfkc : String → String)
    (entries : List AliasEntry) (fuzzy : String → ℤ → List (String × ℚ))
    (query : String) (top_k : ℤ) :
    (top_k ≤ 0 → find_product_candidates nfkc entries fuzzy query top_k = [])
    ∧ ((_normalize_product_text nfkc query).isEmpty →
        find_product_candidates nfkc entries fuzzy query top_k = [])
    ∧ (find_product_candidates nfkc entries fuzzy query top_k).length ≤ top_k.toNat
    ∧ ((find_product_candidates nfkc entries fuzzy query top_k).map
        (fun c => c.product_code)).Nodup
    ∧ List.Pairwise (fun a b => b.score < a.score
        ∨ (a.score = b.score ∧ a.product_code ≤ b.product_code))
        (find_product_candidates nfkc entries fuzzy query top_k)
    ∧ (∀ c ∈ find_product_candidates nfkc entries fuzzy query top_k,
        GoodCand (findRequests nfkc entries fuzzy query top_k) c
        ∧ 0 ≤ c.score ∧ c.score ≤ 100) := by
  by_cases htk : top_k ≤ 0
  · unfold find_product_candidates
    rw [if_pos htk]
    refine ⟨fun _ => rfl, fun _ => rfl, by simp, by simp, by simp, by simp⟩
  · by_cases hq : (_normalize_product_text nfkc query).isEmpty
    · unfold find_product_candidates
      rw [if_neg htk, if_pos hq]
      refine ⟨fun h => absurd h htk, fun _ => rfl, by simp, by simp, by simp, by simp⟩
    · have hout : find_product_candidates nfkc entries fuzzy query top_k
          = ((upsertAll [] (findRequests nfkc entries fuzzy query top_k)).mergeSort
              candLE).take top_k.toNat := by
        unfold find_product_candidates
        rw [if_neg htk, if_neg hq]
      set reqs := findRequests nfkc entries fuzzy query top_k with hreqs
      set st := upsertAll [] reqs with hst
      have hnodup : (st.map (fun c => c.product_code)).Nodup :=
        upsertAll_keys_nodup reqs [] (by simp)
      have hperm : (st.mergeSort candLE).Perm st := List.mergeSort_perm st candLE
      have hnodup' : ((st.mergeSort candLE).map (fun c => c.product_code)).Nodup :=
        (hperm.map (fun c => c.product_code)).nodup_iff.mpr hnodup
      have hsorted : List.Pairwise (fun a b => candLE a b = true)
          (st.mergeSort candLE) :=
        List.sorted_mergeSort candLE_trans candLE_total st
      refine ⟨fun h => absurd h htk, fun h => absurd h hq, ?_, ?_, ?_, ?_⟩
      · rw [hout, List.length_take]
        exact min_le_left _ _
      · rw [hout, List.map_take]
        exact hnodup'.sublist (List.take_sublist _ _)
      · rw [hout]
        have := hsorted.sublist (List.take_sublist top_k.toNat (st.mergeSort candLE))
        refine this.imp ?_
        intro a b hab
        unfold candLE at hab
        rwa [decide_eq_true_eq] at hab
      · rw [hout]
        intro c hc
        have hcmem : c ∈ st :=
          hperm.mem_iff.mp ((List.take_sublist _ _).subset hc)
        have hfind : st.find? (fun d => d.product_code == c.product_code) = some c :=
          find?_eq_of_mem_nodup st hnodup c hcmem
        rw [hst, find?_upsertAll reqs c.product_code []] at hfind
        have hcodes : ∀ r ∈ codeReqs reqs c.product_code, r.code = c.product_code := by
          intro r hr
          have := List.of_mem_filter hr
          rwa [beq_iff_eq] at this
        have hchar := foldl_upsertOpt_invariant c.product_code
          (codeReqs reqs c.product_code) hcodes [] none (fun _ => rfl)
          (fun c0 h0 => absurd h0 (by simp)) c (by simpa using hfind)
        obtain ⟨-, ⟨r0, hr0mem, hr0code, hr0alias, hr0score⟩, hbound⟩ := hchar
        have hgood : GoodCand reqs c := by
          have hr0mem' : r0 ∈ reqs := by
            have h' := hr0mem
            unfold codeReqs at h'
            exact List.mem_of_mem_filter h'
          constructor
          · exact ⟨r0, hr0mem', hr0code, hr0alias, hr0score⟩
          · intro r hr hrc
            have hrin : r ∈ codeReqs reqs c.product_code := by
              unfold codeReqs
              exact List.mem_filter.mpr ⟨hr, by simpa using hrc⟩
            exact hbound r (by simpa using hrin) hrc
        refine ⟨hgood, ?_⟩
        rw [hr0score]
        exact round2_bounded_mem _

/-- Witness for C2 at concrete degenerate inputs: a non-positive `top_k`
and a query that normalizes to the empty string both yield the empty
sequence. -/
theorem find_product_candidates_correct_witness :
    find_product_candidates id [] (fun _ _ => []) "hc10" 0 = []
    ∧ find_product_candidates id
        [{ aliasStr := "HC", norm := "HC", code := "HC" }] (fun _ _ => []) "。、" 3
      = [] := by
  refine ⟨(find_product_candidates_correct id [] (fun _ _ => []) "hc10" 0).1
      (by decide),
    (find_product_candidates_correct id
        [{ aliasStr := "HC", norm := "HC", code := "HC" }]
        (fun _ _ => []) "。、" 3).2.1 (by decide)⟩

end FinNorm
